import Mathlib

/-
A shallow embedding, in Lean 4, of the sunset-db storage engine
(src/lib.rs and src/error.rs of the aldur/sunset-db repository).

Modelling conventions:
  - A file is a `List Nat` of byte values; strings (Rust `&str` / `String`)
    are their UTF-8 byte sequences, so keys and values are `List Nat` too.
    The `&str` type invariants (valid UTF-8; length at most `isize::MAX`,
    hence below `2^63`; `usize` width 64 bits) appear as explicit hypotheses
    where a theorem relies on them.
  - The file cursor becomes explicit position passing: reading functions
    take a position and return the new position.  Appends (which first seek
    to the end of the file) become list concatenation.
  - `read_exact` fails with an IO error (UnexpectedEof) when fewer bytes
    than requested remain; reads that are fully in bounds succeed.  OS-level
    IO failures (disk errors) are environment nondeterminism and are not
    modelled; writes to the in-memory list always succeed.
  - The in-memory `Index` (`HashMap<String, u64>`) is an association list
    with unique keys; `idxInsert` replaces the entry for an existing key in
    place, `idxRemove` removes it (`HashMap` holds at most one entry per
    key, so removal is a filter).
  - `crc32fast::hash` is the standard CRC-32 (IEEE, reflected polynomial
    0xEDB88320, initial value and final xor 0xFFFFFFFF), computed here
    bytewise over `Nat` values below `2^32`.
  - The `debug_assert!` in `Segment::get` is compiled out of release
    builds; the model follows the release behaviour, as the specification
    notes it is a debug-only invariant check.
-/

namespace SunsetModel

/-- Decidable equality on `Except`, for evaluating concrete instances. -/
instance instDecEqExcept {ε α : Type _} [DecidableEq ε] [DecidableEq α] :
    DecidableEq (Except ε α) := fun x y =>
  match x, y with
  | .ok a, .ok b =>
    if h : a = b then isTrue (by rw [h]) else isFalse (by intro he; cases he; exact h rfl)
  | .ok _, .error _ => isFalse (by intro h; cases h)
  | .error _, .ok _ => isFalse (by intro h; cases h)
  | .error e, .error f =>
    if h : e = f then isTrue (by rw [h]) else isFalse (by intro he; cases he; exact h rfl)

/-! ## Constants (src/lib.rs lines 16-20, 241-242) -/

/-- `const TOMBSTONE: u64 = 1u64 << 63`. -/
def TOMBSTONE : Nat := 2 ^ 63

/-- `u64::MAX`. -/
def U64_MAX : Nat := 2 ^ 64 - 1

/-- `i64::MAX`, the largest offset accepted by `SeekFrom::Current`. -/
def I64_MAX : Nat := 2 ^ 63 - 1

/-- `const ENCODED_LEN_SIZE: usize = size_of::<u64>()`. -/
def ENCODED_LEN_SIZE : Nat := 8

/-- `const CRC32_SIZE: usize = size_of::<u32>()`. -/
def CRC32_SIZE : Nat := 4

/-! ## Big-endian encoding (`u64::to_be_bytes`, `u64::from_be_bytes`) -/

/-- `n.to_be_bytes()` for a `u64` value: eight big-endian bytes. -/
def u64Be (n : Nat) : List Nat :=
  [n / 2 ^ 56 % 256, n / 2 ^ 48 % 256, n / 2 ^ 40 % 256, n / 2 ^ 32 % 256,
   n / 2 ^ 24 % 256, n / 2 ^ 16 % 256, n / 2 ^ 8 % 256, n % 256]

/-- `n.to_be_bytes()` for a `u32` value: four big-endian bytes. -/
def u32Be (n : Nat) : List Nat :=
  [n / 2 ^ 24 % 256, n / 2 ^ 16 % 256, n / 2 ^ 8 % 256, n % 256]

/-- `u64::from_be_bytes` / big-endian decoding of a byte list. -/
def beDecode (l : List Nat) : Nat := l.foldl (fun a b => a * 256 + b) 0

/-- `const ENCODED_TOMBSTONE: [u8; 8] = TOMBSTONE.to_be_bytes()`. -/
def ENCODED_TOMBSTONE : List Nat := u64Be TOMBSTONE

/-! ## CRC-32 (`crc32fast::hash`) -/

/-- One shift-xor round of the reflected CRC-32 polynomial 0xEDB88320. -/
def crcRound (c : Nat) : Nat := if c % 2 = 1 then c / 2 ^^^ 0xEDB88320 else c / 2

/-- Fold one byte into the CRC state (eight polynomial rounds).  The
argument is reduced mod 256 because the Rust input type is `u8`. -/
def crcByte (c b : Nat) : Nat := crcRound^[8] (c ^^^ b % 256)

/-- `crc32fast::hash(bytes)`: CRC-32/ISO-HDLC of a byte sequence. -/
def crc32 (l : List Nat) : Nat := 0xFFFFFFFF ^^^ l.foldl crcByte 0xFFFFFFFF

/-! ## UTF-8 validity (`String::from_utf8` acceptance, RFC 3629) -/

/-- A UTF-8 continuation byte: `0x80..=0xBF`. -/
def utf8Cont (b : Nat) : Bool := decide (128 ≤ b ∧ b ≤ 191)

/-- Whether a byte sequence is valid UTF-8, i.e. `String::from_utf8`
succeeds on it.  Follows the RFC 3629 byte-range table (surrogates and
values above U+10FFFF excluded, overlong forms excluded). -/
def validUtf8 : List Nat → Bool
  | [] => true
  | b :: r =>
    if b ≤ 127 then validUtf8 r
    else if 194 ≤ b ∧ b ≤ 223 then
      match r with
      | c1 :: r2 => utf8Cont c1 && validUtf8 r2
      | [] => false
    else if b = 224 then
      match r with
      | c1 :: c2 :: r2 => decide (160 ≤ c1 ∧ c1 ≤ 191) && utf8Cont c2 && validUtf8 r2
      | _ => false
    else if 225 ≤ b ∧ b ≤ 236 then
      match r with
      | c1 :: c2 :: r2 => utf8Cont c1 && utf8Cont c2 && validUtf8 r2
      | _ => false
    else if b = 237 then
      match r with
      | c1 :: c2 :: r2 => decide (128 ≤ c1 ∧ c1 ≤ 159) && utf8Cont c2 && validUtf8 r2
      | _ => false
    else if 238 ≤ b ∧ b ≤ 239 then
      match r with
      | c1 :: c2 :: r2 => utf8Cont c1 && utf8Cont c2 && validUtf8 r2
      | _ => false
    else if b = 240 then
      match r with
      | c1 :: c2 :: c3 :: r2 =>
        decide (144 ≤ c1 ∧ c1 ≤ 191) && utf8Cont c2 && utf8Cont c3 && validUtf8 r2
      | _ => false
    else if 241 ≤ b ∧ b ≤ 243 then
      match r with
      | c1 :: c2 :: c3 :: r2 => utf8Cont c1 && utf8Cont c2 && utf8Cont c3 && validUtf8 r2
      | _ => false
    else if b = 244 then
      match r with
      | c1 :: c2 :: c3 :: r2 =>
        decide (128 ≤ c1 ∧ c1 ≤ 143) && utf8Cont c2 && utf8Cont c3 && validUtf8 r2
      | _ => false
    else false

/-! ## Error taxonomy (src/error.rs) -/

/-- `ReadError` (src/error.rs lines 90-106).  `ioError` stands for the
wrapped `io::Error` (in this model always an end-of-file condition from
`read_exact`); `invalidInt` is the `TryFromIntError` variant, unreachable
on a 64-bit host where `usize::try_from::<u64>` always succeeds. -/
inductive ReadError where
  | ioError
  | invalidChecksum (expected found : Nat)
  | invalidString
  | invalidInt
deriving DecidableEq, Repr

/-- `GetError` (src/error.rs lines 45-55).  `Segment::get` surfaces codec
failures through the `readError` variant via `#[from]`. -/
inductive GetError where
  | keyNotFound
  | invalidChecksum (expected found : Nat)
  | readError (e : ReadError)
deriving DecidableEq, Repr

/-- `InsertError` (src/error.rs lines 18-31). -/
inductive InsertError where
  | noSegments
  | keyExceedsMaxSize
  | valueExceedsMaxSize
  | ioError
deriving DecidableEq, Repr

/-- `DeleteError` (src/error.rs lines 33-43). -/
inductive DeleteError where
  | noSegments
  | keyNotFound
  | ioError
deriving DecidableEq, Repr

/-- `SegmentError` (src/error.rs lines 57-76). -/
inductive SegmentError where
  | invalidPath
  | invalidIndexFormat (s : String)
  | seekError
  | readError (e : ReadError)
  | ioErrorAtPath
  | ioError
deriving DecidableEq, Repr

/-! ## Record codec (src/lib.rs lines 244-313) -/

/-- `read_exact` into a buffer of `n` bytes starting at `pos`: succeeds
with exactly the requested bytes and the advanced position, or fails with
UnexpectedEof when the file ends first.  (All call sites in the source
request `n > 0` bytes, or read at a position at or before end of file, so
the `n = 0` beyond-EOF corner never arises.) -/
def readExact (file : List Nat) (pos n : Nat) : Except ReadError (List Nat × Nat) :=
  if pos + n ≤ file.length then .ok ((file.drop pos).take n, pos + n)
  else .error .ioError

/-- The on-disk encoding of one string record,
`<len> || <string> || <checksum>` (comment at src/lib.rs line 256). -/
def stringRecord (b : List Nat) : List Nat :=
  u64Be b.length ++ (b ++ u32Be (crc32 b))

/-- `append_string` (src/lib.rs lines 257-271): seek to end, write the
big-endian length, the raw bytes, and the CRC-32 of the raw bytes. -/
def append_string (file b : List Nat) : List Nat := file ++ stringRecord b

/-- `append_deletion` (src/lib.rs lines 245-254): seek to end, write the
encoded tombstone only. -/
def append_deletion (file : List Nat) : List Nat := file ++ ENCODED_TOMBSTONE

/-- `read_check_string` (src/lib.rs lines 283-307): read an 8-byte length;
if it is the tombstone return `none`; otherwise read that many bytes and a
4-byte checksum, fail with `invalidChecksum {expected, found}` when the
recomputed CRC differs from the stored one, and check UTF-8 validity.
Returns the decoded bytes together with the new stream position. -/
def read_check_string (file : List Nat) (pos : Nat) :
    Except ReadError (Option (List Nat) × Nat) :=
  match readExact file pos 8 with
  | .error e => .error e
  | .ok (encLen, p1) =>
    if encLen = ENCODED_TOMBSTONE then .ok (none, p1)
    else
      match readExact file p1 (beDecode encLen) with
      | .error e => .error e
      | .ok (bytes, p2) =>
        match readExact file p2 4 with
        | .error e => .error e
        | .ok (crcBytes, _p3) =>
          if beDecode crcBytes ≠ crc32 bytes then
            .error (.invalidChecksum (crc32 bytes) (beDecode crcBytes))
          else if validUtf8 bytes then .ok (some bytes, p2 + 4)
          else .error .invalidString

/-- `read_string_at_offset` (src/lib.rs lines 309-313): seek to the
absolute offset and `read_check_string` there. -/
def read_string_at_offset (file : List Nat) (offset : Nat) :
    Except ReadError (Option (List Nat)) :=
  match read_check_string file offset with
  | .error e => .error e
  | .ok (v, _) => .ok v

/-! ## The in-memory index (`type Index = HashMap<String, u64>`) -/

/-- The index models `HashMap<String, u64>` as an association list with
unique keys. -/
def Index : Type := List (List Nat × Nat)

instance : DecidableEq Index := by unfold Index; infer_instance

/-- `HashMap::get`. -/
def idxLookup : Index → List Nat → Option Nat
  | [], _ => none
  | (k, v) :: t, key => if k = key then some v else idxLookup t key

/-- `HashMap::insert`: replace the entry for the key if present, else
append one. -/
def idxInsert : Index → List Nat → Nat → Index
  | [], key, off => [(key, off)]
  | (k, v) :: t, key, off =>
    if k = key then (key, off) :: t else (k, v) :: idxInsert t key off

/-- `HashMap::remove`: drop the entry for the key (at most one exists). -/
def idxRemove : Index → List Nat → Index
  | [], _ => []
  | (k, v) :: t, key => if k = key then idxRemove t key else (k, v) :: idxRemove t key

/-! ## Segment (src/lib.rs lines 46-156) -/

/-- `struct Segment`: the numeric id, the file contents (the open handle
plus what is on disk), and the in-memory index. -/
structure Segment where
  id : Nat
  file : List Nat
  index : Index
deriving DecidableEq

/-- A fresh segment over an empty file, as produced by `Segment::new` on a
path that does not exist yet. -/
def emptySeg : Segment := ⟨0, [], []⟩

/-- `Segment::insert` (src/lib.rs lines 73-100): reject values whose
length would alias the tombstone, reject keys longer than `u64::MAX`
(unreachable for a real `usize`), record the current end-of-file offset in
the index and append the key record then the value record. -/
def Segment.insert (s : Segment) (key value : List Nat) :
    Except InsertError Unit × Segment :=
  if value.length ≥ TOMBSTONE then (.error .valueExceedsMaxSize, s)
  else if key.length > U64_MAX then (.error .keyExceedsMaxSize, s)
  else
    let offset := s.file.length
    let f2 := append_string (append_string s.file key) value
    (.ok (), { s with file := f2, index := idxInsert s.index key offset })

/-- `Segment::delete` (src/lib.rs lines 102-107): append the key record
and a tombstone, then remove the key from the index; report key-not-found
when the index had no entry (the file has been appended to regardless). -/
def Segment.delete (s : Segment) (key : List Nat) :
    Except DeleteError Unit × Segment :=
  let f2 := append_deletion (append_string s.file key)
  match idxLookup s.index key with
  | some _ => (.ok (), { s with file := f2, index := idxRemove s.index key })
  | none => (.error .keyNotFound, { s with file := f2, index := idxRemove s.index key })

/-- `Segment::get` (src/lib.rs lines 109-121): look the key up in the
index, skip the key record (`8 + key.len() + 4` bytes) and read the value
record there.  The `debug_assert!` re-reading the key is a no-op in
release builds and is not modelled. -/
def Segment.get (s : Segment) (key : List Nat) : Except GetError (List Nat) :=
  match idxLookup s.index key with
  | none => .error .keyNotFound
  | some offset =>
    match read_string_at_offset s.file (offset + ENCODED_LEN_SIZE + key.length + CRC32_SIZE) with
    | .error e => .error (.readError e)
    | .ok none => .error .keyNotFound
    | .ok (some v) => .ok v

/-! ## Index reconstruction (src/lib.rs lines 123-155)

`index_from_disk` rewinds and loops: stop successfully when the position
equals the file length; otherwise read and verify a key record (a
tombstone in key position is an invalid-index-format error), read the
next 8 bytes; on a tombstone remove the key, otherwise record
`key -> offset` and seek forward.  The seek delta is the `u64` sum
`value_len + CRC32_SIZE as u64`, which in release builds wraps modulo
`2^64` when `value_len` is at least `2^64 - 4` (debug builds panic on
the overflow; the model follows the release behaviour throughout); the
wrapped delta must then fit in an `i64` (`SeekFrom::Current`), else
`SeekError`.  The loop in the source terminates because every iteration
advances the position past the key record it has read; here that
argument is the well-founded recursion measure. -/

theorem readExact_ok {file : List Nat} {pos n : Nat} {bs : List Nat} {p2 : Nat}
    (h : readExact file pos n = .ok (bs, p2)) :
    bs = (file.drop pos).take n ∧ p2 = pos + n ∧ pos + n ≤ file.length := by
  unfold readExact at h
  split at h
  · cases h; exact ⟨rfl, rfl, by assumption⟩
  · cases h

theorem read_check_string_pos {file : List Nat} {pos : Nat} {v : Option (List Nat)} {p2 : Nat}
    (h : read_check_string file pos = .ok (v, p2)) :
    pos + 8 ≤ file.length ∧ pos < p2 ∧ p2 ≤ file.length := by
  unfold read_check_string at h
  cases h1 : readExact file pos 8 with
  | error e => rw [h1] at h; cases h
  | ok r =>
    obtain ⟨encLen, p1⟩ := r
    obtain ⟨-, hp1, hb1⟩ := readExact_ok h1
    rw [h1] at h
    simp only at h
    split at h
    · cases h; omega
    · cases h2 : readExact file p1 (beDecode encLen) with
      | error e => rw [h2] at h; cases h
      | ok r2 =>
        obtain ⟨bytes, p2'⟩ := r2
        obtain ⟨-, hp2, hb2⟩ := readExact_ok h2
        rw [h2] at h
        simp only at h
        cases h3 : readExact file p2' 4 with
        | error e => rw [h3] at h; cases h
        | ok r3 =>
          obtain ⟨crcBytes, p3⟩ := r3
          obtain ⟨-, hp3, hb3⟩ := readExact_ok h3
          rw [h3] at h
          simp only at h
          split at h
          · cases h
          · split at h
            · cases h; omega
            · cases h

/-- The scan loop of `Segment::index_from_disk`, with the stream position
and the index under construction explicit. -/
def scanLoop (file : List Nat) (pos : Nat) (idx : Index) : Except SegmentError Index :=
  if _hpos : pos = file.length then .ok idx
  else
    match h1 : read_check_string file pos with
    | .error e => .error (.readError e)
    | .ok (none, _) => .error (.invalidIndexFormat "tombstone in index")
    | .ok (some key, p1) =>
      match h2 : readExact file p1 8 with
      | .error e => .error (.readError e)
      | .ok (encV, p2) =>
        if encV = ENCODED_TOMBSTONE then scanLoop file p2 (idxRemove idx key)
        else if (beDecode encV + 4) % 2 ^ 64 ≤ I64_MAX then
          scanLoop file (p2 + (beDecode encV + 4) % 2 ^ 64) (idxInsert idx key pos)
        else .error .seekError
termination_by file.length - pos
decreasing_by
  · obtain ⟨hle, hlt, -⟩ := read_check_string_pos h1
    obtain ⟨-, hp2, hb2⟩ := readExact_ok h2
    omega
  · obtain ⟨hle, hlt, -⟩ := read_check_string_pos h1
    obtain ⟨-, hp2, hb2⟩ := readExact_ok h2
    omega

/-- `Segment::index_from_disk`: rewind to position 0 and scan the whole
file, starting from an empty index. -/
def index_from_disk (file : List Nat) : Except SegmentError Index :=
  scanLoop file 0 []

/-- The segment invariant established by `Segment::new` (which builds the
index by `index_from_disk`) and, as proved below, preserved by the
operations: the in-memory index is exactly what a fresh scan of the file
reconstructs. -/
def SegWF (s : Segment) : Prop := index_from_disk s.file = .ok s.index

/-! ## Store (src/lib.rs lines 158-239) -/

/-- `struct SunsetDB`: the segments ordered oldest to newest (ascending
id, the sorted-paths order of `SunsetDB::new`) and the next id to
allocate.  `base_path` carries no behaviour relevant here. -/
structure SunsetDB where
  segments : List Segment
  next_index : Nat
deriving DecidableEq

/-- `SunsetDB::insert` (src/lib.rs lines 214-222): delegate to the segment
at position 0 of the list (the oldest). -/
def SunsetDB.insert (db : SunsetDB) (key value : List Nat) :
    Except InsertError Unit × SunsetDB :=
  match db.segments with
  | [] => (.error .noSegments, db)
  | s :: rest =>
    let r := Segment.insert s key value
    (r.1, { db with segments := r.2 :: rest })

/-- `SunsetDB::delete` (src/lib.rs lines 234-238): delegate to the segment
at position 0 of the list (the oldest). -/
def SunsetDB.delete (db : SunsetDB) (key : List Nat) :
    Except DeleteError Unit × SunsetDB :=
  match db.segments with
  | [] => (.error .noSegments, db)
  | s :: rest =>
    let r := Segment.delete s key
    (r.1, { db with segments := r.2 :: rest })

/-- The fan-out of `SunsetDB::get`: try each segment in list order,
return the first success, swallow every per-segment error. -/
def getFromList : List Segment → List Nat → Except GetError (List Nat)
  | [], _ => .error .keyNotFound
  | s :: rest, key =>
    match Segment.get s key with
    | .ok v => .ok v
    | .error _ => getFromList rest key

/-- `SunsetDB::get` (src/lib.rs lines 224-232): iterate the segments in
reverse (newest first), return the first successful lookup, and report
key-not-found when none succeeds. -/
def SunsetDB.get (db : SunsetDB) (key : List Nat) : Except GetError (List Nat) :=
  getFromList db.segments.reverse key

/-! ## Log entries and operation sequences -/

/-- One log entry as written by the operations: a key record followed by
either a value region (length prefix, raw bytes, 4 checksum bytes) or the
tombstone marker. -/
inductive Entry where
  | put (k vb cb : List Nat)
  | del (k : List Nat)
deriving DecidableEq

/-- The bytes of one entry in the segment file format. -/
def encodeEntry : Entry → List Nat
  | .put k vb cb => stringRecord k ++ (u64Be vb.length ++ (vb ++ cb))
  | .del k => stringRecord k ++ ENCODED_TOMBSTONE

/-! ## Operation sequences on a live segment -/

/-- A public mutating operation on a segment. -/
inductive Op where
  | ins (k v : List Nat)
  | del (k : List Nat)
deriving DecidableEq

/-- Run one operation, keeping the resulting segment only when the
operation succeeds. -/
def applyOp (s : Segment) : Op → Option Segment
  | .ins k v =>
    match Segment.insert s k v with
    | (.ok _, s2) => some s2
    | (.error _, _) => none
  | .del k =>
    match Segment.delete s k with
    | (.ok _, s2) => some s2
    | (.error _, _) => none

/-- Run a sequence of operations; `some` exactly when every operation
succeeds. -/
def runOps (s : Segment) : List Op → Option Segment
  | [] => some s
  | op :: rest =>
    match applyOp s op with
    | some s2 => runOps s2 rest
    | none => none

/-- The `&str` machine-level invariants of an operation argument list
(keys and values are UTF-8 byte strings of length at most `isize::MAX`),
plus, for inserted values, the bound under which the reconstruction scan
can skip the value region with an `i64` seek. -/
def ValidOp : Op → Prop
  | .ins k v => validUtf8 k = true ∧ k.length < 2 ^ 63 ∧ v.length < 2 ^ 63 - 4
  | .del k => validUtf8 k = true ∧ k.length < 2 ^ 63

/-- Wellformedness of one entry: the key invariants of a Rust `&str`
(valid UTF-8; the length fits the 64-bit length field and does not alias
the tombstone), and for value regions a length whose skip seek fits in an
`i64` plus exactly four checksum bytes. -/
def EntryWF : Entry → Prop
  | .put k vb cb => validUtf8 k = true ∧ k.length < 2 ^ 64 ∧ k.length ≠ 2 ^ 63 ∧
      vb.length + 4 ≤ I64_MAX ∧ cb.length = 4
  | .del k => validUtf8 k = true ∧ k.length < 2 ^ 64 ∧ k.length ≠ 2 ^ 63

/-- The bytes of a list of entries, in order. -/
def encodeEntries : List Entry → List Nat
  | [] => []
  | e :: es => encodeEntry e ++ encodeEntries es

/-- The index update performed by one entry found at byte offset `off`:
exactly what the scan loop does. -/
def applyEntry (idx : Index) (off : Nat) : Entry → Index
  | .put k _ _ => idxInsert idx k off
  | .del k => idxRemove idx k

/-- Replaying a list of entries over an index, tracking byte offsets. -/
def replayEntries : List Entry → Nat → Index → Index
  | [], _, idx => idx
  | e :: es, off, idx => replayEntries es (off + (encodeEntry e).length) (applyEntry idx off e)

/-- One region of the log as the reconstruction scan delimits it: a key
record followed by the tombstone, or by a 64-bit length field `n` and a
region of `(n + 4) % 2^64` bytes, the wrapped skip delta of the scan
(value bytes plus four checksum bytes when `n + 4` does not wrap). -/
inductive RawEntry where
  | rput (k : List Nat) (n : Nat) (w : List Nat)
  | rdel (k : List Nat)
deriving DecidableEq

/-- The bytes of one raw entry. -/
def encodeRaw : RawEntry → List Nat
  | .rput k n w => stringRecord k ++ (u64Be n ++ w)
  | .rdel k => stringRecord k ++ ENCODED_TOMBSTONE

/-- The bytes of a list of raw entries, in order. -/
def encodeRaws : List RawEntry → List Nat
  | [] => []
  | e :: es => encodeRaw e ++ encodeRaws es

/-- Wellformedness of a raw entry: the key invariants as for `EntryWF`,
a length field that fits the 64-bit word without aliasing the tombstone,
a wrapped skip delta accepted by the `i64` seek conversion, and a region
of exactly that many bytes.  For `n < 2^64 - 4` the delta is the
unwrapped `n + 4`; for larger `n` the `u64` addition in the source wraps
and the region is shorter than the length field declares. -/
def RawWF : RawEntry → Prop
  | .rput k n w => validUtf8 k = true ∧ k.length < 2 ^ 64 ∧ k.length ≠ 2 ^ 63 ∧
      n < 2 ^ 64 ∧ n ≠ 2 ^ 63 ∧ (n + 4) % 2 ^ 64 ≤ I64_MAX ∧
      w.length = (n + 4) % 2 ^ 64
  | .rdel k => validUtf8 k = true ∧ k.length < 2 ^ 64 ∧ k.length ≠ 2 ^ 63

/-- The index update performed by one raw entry found at offset `off`. -/
def applyRaw (idx : Index) (off : Nat) : RawEntry → Index
  | .rput k _ _ => idxInsert idx k off
  | .rdel k => idxRemove idx k

/-- Replaying a list of raw entries over an index, tracking offsets. -/
def replayRaws : List RawEntry → Nat → Index → Index
  | [], _, idx => idx
  | e :: es, off, idx => replayRaws es (off + (encodeRaw e).length) (applyRaw idx off e)

/-- A 24-byte file whose single trailing record declares a value length
of `2^64 - 1` but holds only 3 bytes: the wrapped skip delta is 3, so
the scan lands exactly on end-of-file and accepts the file. -/
def wrapFile : List Nat := stringRecord [97] ++ (u64Be (2 ^ 64 - 1) ++ [0, 0, 0])

/-- A list of byte values (every element below 256), as any real file is. -/
def ByteValid (l : List Nat) : Prop := ∀ x ∈ l, x < 256

/-! ## Concrete example data for closed instances -/

/-- A small operation sequence exercising insert, overwrite material,
delete and the empty value. -/
def c2OpsEx : List Op := [.ins [97] [120], .ins [98] [121, 122], .del [97], .ins [99] []]

/-- The segment reached by running `c2OpsEx` from a fresh segment. -/
def c2SegEx : Segment :=
  (Segment.insert (Segment.delete
    (Segment.insert (Segment.insert emptySeg [97] [120]).2 [98] [121, 122]).2
      [97]).2 [99] []).2

/-- The result of one per-segment lookup, as an option: `some` on
success, `none` on a miss or any error.  This is the specification-side
view of the fan-out of `SunsetDB::get`. -/
def getOpt (s : Segment) (key : List Nat) : Option (List Nat) :=
  match Segment.get s key with
  | .ok v => some v
  | .error _ => none

/-- A segment holding one key, for concrete store instances. -/
def segK : Segment := (Segment.insert emptySeg [107] [118]).2

/-- A store with two segments (ids 0 and 1) both holding the key `[107]`,
as produced by opening a directory containing two segment files. -/
def dbTwo : SunsetDB := ⟨[segK, { segK with id := 1 }], 2⟩

/-- A segment over a file whose single entry has a corrupted value
checksum (`[9, 9, 9, 9]` instead of the CRC-32 of the value), with the
index that a reopen builds for it: `index_from_disk` does not verify
value checksums, so the key is indexed and `get` hits the corruption. -/
def segBad : Segment := ⟨7, encodeEntry (.put [107] [118] [9, 9, 9, 9]), [([107], 0)]⟩

/-! ## Basic facts about the codec -/

theorem u64Be_length (n : Nat) : (u64Be n).length = 8 := rfl

theorem u32Be_length (n : Nat) : (u32Be n).length = 4 := rfl

theorem stringRecord_length (b : List Nat) : (stringRecord b).length = 8 + b.length + 4 := by
  simp [stringRecord, u64Be_length, u32Be_length]
  omega

theorem ENCODED_TOMBSTONE_length : ENCODED_TOMBSTONE.length = 8 := rfl

theorem beDecode_u64Be {n : Nat} (h : n < 2 ^ 64) : beDecode (u64Be n) = n := by
  simp only [u64Be, beDecode, List.foldl]
  omega

theorem beDecode_u32Be {n : Nat} (h : n < 2 ^ 32) : beDecode (u32Be n) = n := by
  simp only [u32Be, beDecode, List.foldl]
  omega

theorem crcRound_lt {c : Nat} (h : c < 2 ^ 32) : crcRound c < 2 ^ 32 := by
  unfold crcRound
  split
  · exact Nat.xor_lt_two_pow (by omega) (by norm_num)
  · omega

theorem crcRound_iter_lt : ∀ (k : Nat) {x : Nat}, x < 2 ^ 32 → crcRound^[k] x < 2 ^ 32 := by
  intro k
  induction k with
  | zero => intro x h; simpa using h
  | succ k ih =>
    intro x h
    rw [Function.iterate_succ_apply]
    exact ih (crcRound_lt h)

theorem crcByte_lt {c : Nat} (h : c < 2 ^ 32) (b : Nat) : crcByte c b < 2 ^ 32 := by
  unfold crcByte
  exact crcRound_iter_lt 8
    (Nat.xor_lt_two_pow h (lt_of_lt_of_le (Nat.mod_lt b (by norm_num)) (by norm_num)))

theorem crc32_lt (l : List Nat) : crc32 l < 2 ^ 32 := by
  unfold crc32
  have : ∀ (t : List Nat) (c : Nat), c < 2 ^ 32 → t.foldl crcByte c < 2 ^ 32 := by
    intro t
    induction t with
    | nil => intro c hc; simpa using hc
    | cons a t ih => intro c hc; exact ih _ (crcByte_lt hc a)
  exact Nat.xor_lt_two_pow (by norm_num) (this l 0xFFFFFFFF (by norm_num))

theorem beDecode_tombstone : beDecode ENCODED_TOMBSTONE = 2 ^ 63 := by decide

theorem u64Be_ne_tombstone {n : Nat} (h64 : n < 2 ^ 64) (hne : n ≠ 2 ^ 63) :
    u64Be n ≠ ENCODED_TOMBSTONE := by
  intro heq
  have := congrArg beDecode heq
  rw [beDecode_u64Be h64, beDecode_tombstone] at this
  exact hne this

/-! ## List take/drop helpers -/

theorem drop_append_le {A B : List Nat} {n : Nat} (h : n ≤ A.length) :
    (A ++ B).drop n = A.drop n ++ B := by
  rw [List.drop_append_eq_append_drop, Nat.sub_eq_zero_of_le h, List.drop_zero]

theorem take_append_le {A B : List Nat} {n : Nat} (h : n ≤ A.length) :
    (A ++ B).take n = A.take n := by
  rw [List.take_append_eq_append_take, Nat.sub_eq_zero_of_le h, List.take_zero, List.append_nil]

theorem take_append_add {A B : List Nat} {n : Nat} :
    (A ++ B).take (A.length + n) = A ++ B.take n := by
  rw [List.take_append_eq_append_take, List.take_of_length_le (by omega)]
  congr 1
  congr 1
  omega

theorem drop_append_add {A B : List Nat} {n : Nat} :
    (A ++ B).drop (A.length + n) = B.drop n := by
  rw [List.drop_append_eq_append_drop, List.drop_of_length_le (by omega), List.nil_append]
  congr 1
  omega

/-! ## readExact facts -/

theorem readExact_spec {file : List Nat} (A B C : List Nat) {pos n : Nat}
    (hf : file = A ++ (B ++ C)) (hp : pos = A.length) (hn : n = B.length) :
    readExact file pos n = .ok (B, pos + n) := by
  subst hf hp hn
  unfold readExact
  rw [if_pos (by simp only [List.length_append]; omega)]
  rw [List.drop_left, List.take_left]

theorem readExact_oob {file : List Nat} {pos n : Nat} (h : file.length < pos + n) :
    readExact file pos n = .error .ioError := by
  unfold readExact
  rw [if_neg (by omega)]

theorem readExact_mono {file ext : List Nat} {pos n : Nat} {bs : List Nat} {p2 : Nat}
    (h : readExact file pos n = .ok (bs, p2)) :
    readExact (file ++ ext) pos n = .ok (bs, p2) := by
  obtain ⟨hbs, hp2, hle⟩ := readExact_ok h
  unfold readExact
  rw [if_pos (by simp; omega)]
  rw [drop_append_le (by omega), take_append_le (by simp; omega), hbs, hp2]

/-! ## Index facts -/

theorem idxLookup_insert_self (idx : Index) (k : List Nat) (off : Nat) :
    idxLookup (idxInsert idx k off) k = some off := by
  induction idx with
  | nil => simp [idxInsert, idxLookup]
  | cons e t ih =>
    obtain ⟨k1, v1⟩ := e
    by_cases h : k1 = k
    · simp [idxInsert, h, idxLookup]
    · simp [idxInsert, h, idxLookup, ih]

theorem idxLookup_remove_self (idx : Index) (k : List Nat) :
    idxLookup (idxRemove idx k) k = none := by
  induction idx with
  | nil => simp [idxRemove, idxLookup]
  | cons e t ih =>
    obtain ⟨k1, v1⟩ := e
    by_cases h : k1 = k
    · simp [idxRemove, h, ih]
    · simp [idxRemove, h, idxLookup, ih]

theorem idxRemove_absent {idx : Index} {k : List Nat} (h : idxLookup idx k = none) :
    idxRemove idx k = idx := by
  induction idx with
  | nil => rfl
  | cons e t ih =>
    obtain ⟨k1, v1⟩ := e
    simp only [idxLookup] at h
    split at h
    · cases h
    · simp only [idxRemove]
      rw [if_neg (by assumption), ih h]

/-! ## scanLoop unfolding equations -/

theorem scanLoop_eof {file : List Nat} {pos : Nat} {idx : Index} (h : pos = file.length) :
    scanLoop file pos idx = .ok idx := by
  conv_lhs => rw [scanLoop.eq_def]
  rw [dif_pos h]

theorem scanLoop_eq_del {file : List Nat} {pos : Nat} {idx : Index} {k : List Nat} {p1 p2 : Nat}
    (hpos : pos ≠ file.length)
    (h1 : read_check_string file pos = .ok (some k, p1))
    (h2 : readExact file p1 8 = .ok (ENCODED_TOMBSTONE, p2)) :
    scanLoop file pos idx = scanLoop file p2 (idxRemove idx k) := by
  conv_lhs => rw [scanLoop.eq_def]
  rw [dif_neg hpos]
  split
  · rename_i e; rw [h1] at e; cases e
  · rename_i e; rw [h1] at e; cases e
  · rename_i k2 p12 e
    rw [h1] at e
    injection e with e1
    injection e1 with ek ep
    injection ek with ek
    subst ek ep
    split
    · rename_i e; rw [h2] at e; cases e
    · rename_i encV p22 e
      rw [h2] at e
      injection e with e1
      injection e1 with ev ep2
      subst ev ep2
      rw [if_pos rfl]

theorem scanLoop_eq_put {file : List Nat} {pos : Nat} {idx : Index} {k : List Nat}
    {p1 p2 : Nat} {encV : List Nat}
    (hpos : pos ≠ file.length)
    (h1 : read_check_string file pos = .ok (some k, p1))
    (h2 : readExact file p1 8 = .ok (encV, p2))
    (hne : encV ≠ ENCODED_TOMBSTONE)
    (hle : (beDecode encV + 4) % 2 ^ 64 ≤ I64_MAX) :
    scanLoop file pos idx =
      scanLoop file (p2 + (beDecode encV + 4) % 2 ^ 64) (idxInsert idx k pos) := by
  conv_lhs => rw [scanLoop.eq_def]
  rw [dif_neg hpos]
  split
  · rename_i e; rw [h1] at e; cases e
  · rename_i e; rw [h1] at e; cases e
  · rename_i k2 p12 e
    rw [h1] at e
    injection e with e1
    injection e1 with ek ep
    injection ek with ek
    subst ek ep
    split
    · rename_i e; rw [h2] at e; cases e
    · rename_i encV2 p22 e
      rw [h2] at e
      injection e with e1
      injection e1 with ev ep2
      subst ev ep2
      rw [if_neg hne, if_pos hle]

theorem scanLoop_eq_seek_err {file : List Nat} {pos : Nat} {idx : Index} {k : List Nat}
    {p1 p2 : Nat} {encV : List Nat}
    (hpos : pos ≠ file.length)
    (h1 : read_check_string file pos = .ok (some k, p1))
    (h2 : readExact file p1 8 = .ok (encV, p2))
    (hne : encV ≠ ENCODED_TOMBSTONE)
    (hgt : ¬ (beDecode encV + 4) % 2 ^ 64 ≤ I64_MAX) :
    scanLoop file pos idx = .error .seekError := by
  conv_lhs => rw [scanLoop.eq_def]
  rw [dif_neg hpos]
  split
  · rename_i e; rw [h1] at e; cases e
  · rename_i e; rw [h1] at e; cases e
  · rename_i k2 p12 e
    rw [h1] at e
    injection e with e1
    injection e1 with ek ep
    injection ek with ek
    subst ek ep
    split
    · rename_i e; rw [h2] at e; cases e
    · rename_i encV2 p22 e
      rw [h2] at e
      injection e with e1
      injection e1 with ev ep2
      subst ev ep2
      rw [if_neg hne, if_neg hgt]

theorem scanLoop_eq_rcs_err {file : List Nat} {pos : Nat} {idx : Index} {e : ReadError}
    (hpos : pos ≠ file.length)
    (h1 : read_check_string file pos = .error e) :
    scanLoop file pos idx = .error (.readError e) := by
  conv_lhs => rw [scanLoop.eq_def]
  rw [dif_neg hpos]
  split
  · rename_i e2 he; rw [h1] at he; injection he with he; subst he; rfl
  · rename_i he; rw [h1] at he; cases he
  · rename_i k2 p12 he; rw [h1] at he; cases he

theorem scanLoop_eq_tomb_key {file : List Nat} {pos : Nat} {idx : Index} {q : Nat}
    (hpos : pos ≠ file.length)
    (h1 : read_check_string file pos = .ok (none, q)) :
    scanLoop file pos idx = .error (.invalidIndexFormat "tombstone in index") := by
  conv_lhs => rw [scanLoop.eq_def]
  rw [dif_neg hpos]
  split
  · rename_i he; rw [h1] at he; cases he
  · rfl
  · rename_i k2 p12 he
    rw [h1] at he
    injection he with he
    injection he with hv hp
    cases hv

theorem scanLoop_eq_vread_err {file : List Nat} {pos : Nat} {idx : Index} {k : List Nat}
    {p1 : Nat} {e : ReadError}
    (hpos : pos ≠ file.length)
    (h1 : read_check_string file pos = .ok (some k, p1))
    (h2 : readExact file p1 8 = .error e) :
    scanLoop file pos idx = .error (.readError e) := by
  conv_lhs => rw [scanLoop.eq_def]
  rw [dif_neg hpos]
  split
  · rename_i he; rw [h1] at he; cases he
  · rename_i he; rw [h1] at he; cases he
  · rename_i k2 p12 he
    rw [h1] at he
    injection he with he
    injection he with hv hp
    injection hv with hv
    subst hv hp
    split
    · rename_i e2 he2; rw [h2] at he2; injection he2 with he2; subst he2; rfl
    · rename_i encV2 p22 he2; rw [h2] at he2; cases he2


/-! ## Reading whole records -/

theorem read_check_string_record {file : List Nat} (A C b : List Nat) {pos : Nat}
    (hf : file = A ++ (stringRecord b ++ C)) (hp : pos = A.length)
    (h64 : b.length < 2 ^ 64) (hne : b.length ≠ 2 ^ 63) (hu : validUtf8 b = true) :
    read_check_string file pos = .ok (some b, pos + 8 + b.length + 4) := by
  have e1 : readExact file pos 8 = .ok (u64Be b.length, pos + 8) :=
    readExact_spec A (u64Be b.length) (b ++ (u32Be (crc32 b) ++ C))
      (by rw [hf]; simp [stringRecord, List.append_assoc]) hp rfl
  have e2 : readExact file (pos + 8) b.length = .ok (b, pos + 8 + b.length) :=
    readExact_spec (A ++ u64Be b.length) b (u32Be (crc32 b) ++ C)
      (by rw [hf]; simp [stringRecord, List.append_assoc])
      (by simp [hp, u64Be_length]) rfl
  have e3 : readExact file (pos + 8 + b.length) 4 =
      .ok (u32Be (crc32 b), pos + 8 + b.length + 4) :=
    readExact_spec (A ++ u64Be b.length ++ b) (u32Be (crc32 b)) C
      (by rw [hf]; simp [stringRecord, List.append_assoc])
      (by simp [hp, u64Be_length]; omega) rfl
  unfold read_check_string
  rw [e1]
  dsimp only
  rw [if_neg (u64Be_ne_tombstone h64 hne), beDecode_u64Be h64, e2]
  dsimp only
  rw [e3]
  dsimp only
  rw [beDecode_u32Be (crc32_lt b)]
  rw [if_neg (by simp), if_pos hu]


theorem read_check_string_badcrc {file : List Nat} (A vb cb C : List Nat) {p : Nat}
    (hf : file = A ++ (u64Be vb.length ++ (vb ++ (cb ++ C)))) (hp : p = A.length)
    (h64 : vb.length < 2 ^ 64) (hne : vb.length ≠ 2 ^ 63) (hcb : cb.length = 4)
    (hbad : beDecode cb ≠ crc32 vb) :
    read_check_string file p = .error (.invalidChecksum (crc32 vb) (beDecode cb)) := by
  have e1 : readExact file p 8 = .ok (u64Be vb.length, p + 8) :=
    readExact_spec A (u64Be vb.length) (vb ++ (cb ++ C)) hf hp rfl
  have e2 : readExact file (p + 8) vb.length = .ok (vb, p + 8 + vb.length) :=
    readExact_spec (A ++ u64Be vb.length) vb (cb ++ C)
      (by rw [hf]; simp [List.append_assoc])
      (by simp [hp, u64Be_length]) rfl
  have e3 : readExact file (p + 8 + vb.length) 4 = .ok (cb, p + 8 + vb.length + 4) :=
    readExact_spec (A ++ u64Be vb.length ++ vb) cb C
      (by rw [hf]; simp [List.append_assoc])
      (by simp [hp, u64Be_length]; omega) hcb.symm
  unfold read_check_string
  rw [e1]
  dsimp only
  rw [if_neg (u64Be_ne_tombstone h64 hne), beDecode_u64Be h64, e2]
  dsimp only
  rw [e3]
  dsimp only
  rw [if_pos hbad]

theorem read_check_string_mono {file ext : List Nat} {pos : Nat}
    {r : Option (List Nat) × Nat}
    (h : read_check_string file pos = .ok r) :
    read_check_string (file ++ ext) pos = .ok r := by
  unfold read_check_string at h ⊢
  cases e1 : readExact file pos 8 with
  | error e => rw [e1] at h; cases h
  | ok v1 =>
    obtain ⟨encLen, p1⟩ := v1
    rw [e1] at h
    rw [readExact_mono e1]
    dsimp only at h ⊢
    by_cases ht : encLen = ENCODED_TOMBSTONE
    · rw [if_pos ht] at h ⊢; exact h
    · rw [if_neg ht] at h ⊢
      cases e2 : readExact file p1 (beDecode encLen) with
      | error e => rw [e2] at h; cases h
      | ok v2 =>
        obtain ⟨bytes, p2⟩ := v2
        rw [e2] at h
        rw [readExact_mono e2]
        dsimp only at h ⊢
        cases e3 : readExact file p2 4 with
        | error e => rw [e3] at h; cases h
        | ok v3 =>
          obtain ⟨crcBytes, p3⟩ := v3
          rw [e3] at h
          rw [readExact_mono e3]
          dsimp only at h ⊢
          exact h


/-! ## Log entries and the scan of appended entries -/

theorem encodeEntry_put_length (k vb cb : List Nat) :
    (encodeEntry (.put k vb cb)).length = 12 + k.length + 8 + vb.length + cb.length := by
  simp [encodeEntry, stringRecord_length, u64Be_length]
  omega

theorem encodeEntry_del_length (k : List Nat) :
    (encodeEntry (.del k)).length = 12 + k.length + 8 := by
  simp [encodeEntry, stringRecord_length, ENCODED_TOMBSTONE_length]
  omega

theorem wrap_small {n : Nat} (h : n + 4 ≤ I64_MAX) : (n + 4) % 2 ^ 64 = n + 4 :=
  Nat.mod_eq_of_lt (by unfold I64_MAX at h; omega)

theorem scan_step_put {f F C k b c : List Nat} {i : Index}
    (hf : f = F ++ (encodeEntry (.put k b c) ++ C))
    (hk64 : k.length < 2 ^ 64) (hkne : k.length ≠ 2 ^ 63) (hku : validUtf8 k = true)
    (hvb : b.length + 4 ≤ I64_MAX) (hcb : c.length = 4) :
    scanLoop f F.length i =
      scanLoop f (F.length + (encodeEntry (.put k b c)).length)
        (idxInsert i k F.length) := by
  have hlen : f.length =
      F.length + (12 + k.length + 8 + b.length + c.length) + C.length := by
    subst hf; simp [encodeEntry, stringRecord_length, u64Be_length]; omega
  have hpos : F.length ≠ f.length := by
    rw [hlen]; omega
  have hv64 : b.length < 2 ^ 64 := by unfold I64_MAX at hvb; omega
  have h1 : read_check_string f F.length = .ok (some k, F.length + 8 + k.length + 4) :=
    read_check_string_record F (u64Be b.length ++ (b ++ c) ++ C) k
      (by rw [hf]; simp [encodeEntry, List.append_assoc]) rfl hk64 hkne hku
  have h2 : readExact f (F.length + 8 + k.length + 4) 8 =
      .ok (u64Be b.length, F.length + 8 + k.length + 4 + 8) :=
    readExact_spec (F ++ stringRecord k) (u64Be b.length) (b ++ (c ++ C))
      (by rw [hf]; simp [encodeEntry, List.append_assoc])
      (by simp [stringRecord_length]; omega) rfl
  have hne2 : u64Be b.length ≠ ENCODED_TOMBSTONE :=
    u64Be_ne_tombstone hv64 (by unfold I64_MAX at hvb; omega)
  rw [scanLoop_eq_put hpos h1 h2 hne2
    (by rw [beDecode_u64Be hv64, wrap_small hvb]; exact hvb)]
  rw [beDecode_u64Be hv64, wrap_small hvb]
  have hq : F.length + 8 + k.length + 4 + 8 + (b.length + 4) =
      F.length + (encodeEntry (.put k b c)).length := by
    rw [encodeEntry_put_length]; omega
  rw [hq]

theorem scan_step_del {f F C k : List Nat} {i : Index}
    (hf : f = F ++ (encodeEntry (.del k) ++ C))
    (hk64 : k.length < 2 ^ 64) (hkne : k.length ≠ 2 ^ 63) (hku : validUtf8 k = true) :
    scanLoop f F.length i =
      scanLoop f (F.length + (encodeEntry (.del k)).length) (idxRemove i k) := by
  have hlen : f.length = F.length + (12 + k.length + 8) + C.length := by
    subst hf; simp [encodeEntry, stringRecord_length, ENCODED_TOMBSTONE_length]; omega
  have hpos : F.length ≠ f.length := by rw [hlen]; omega
  have h1 : read_check_string f F.length = .ok (some k, F.length + 8 + k.length + 4) :=
    read_check_string_record F (ENCODED_TOMBSTONE ++ C) k
      (by rw [hf]; simp [encodeEntry, List.append_assoc]) rfl hk64 hkne hku
  have h2 : readExact f (F.length + 8 + k.length + 4) 8 =
      .ok (ENCODED_TOMBSTONE, F.length + 8 + k.length + 4 + 8) :=
    readExact_spec (F ++ stringRecord k) ENCODED_TOMBSTONE C
      (by rw [hf]; simp [encodeEntry, List.append_assoc])
      (by simp [stringRecord_length]; omega) rfl
  rw [scanLoop_eq_del hpos h1 h2]
  have hq : F.length + 8 + k.length + 4 + 8 = F.length + (encodeEntry (.del k)).length := by
    rw [encodeEntry_del_length]; omega
  rw [hq]

theorem encodeRaw_rput_length (k : List Nat) (n : Nat) (w : List Nat) :
    (encodeRaw (.rput k n w)).length = 12 + k.length + 8 + w.length := by
  simp [encodeRaw, stringRecord_length, u64Be_length]; omega

theorem encodeRaw_rdel_length (k : List Nat) :
    (encodeRaw (.rdel k)).length = 12 + k.length + 8 := by
  simp [encodeRaw, stringRecord_length, ENCODED_TOMBSTONE_length]; omega

theorem scan_step_rput {f F C k w : List Nat} {n : Nat} {i : Index}
    (hf : f = F ++ (encodeRaw (.rput k n w) ++ C))
    (hk64 : k.length < 2 ^ 64) (hkne : k.length ≠ 2 ^ 63) (hku : validUtf8 k = true)
    (hn64 : n < 2 ^ 64) (hnne : n ≠ 2 ^ 63)
    (hnle : (n + 4) % 2 ^ 64 ≤ I64_MAX) (hwl : w.length = (n + 4) % 2 ^ 64) :
    scanLoop f F.length i =
      scanLoop f (F.length + (encodeRaw (.rput k n w)).length)
        (idxInsert i k F.length) := by
  have hlen : f.length = F.length + (12 + k.length + 8 + w.length) + C.length := by
    subst hf; simp [encodeRaw, stringRecord_length, u64Be_length]; omega
  have hpos : F.length ≠ f.length := by rw [hlen]; omega
  have h1 : read_check_string f F.length = .ok (some k, F.length + 8 + k.length + 4) :=
    read_check_string_record F (u64Be n ++ w ++ C) k
      (by rw [hf]; simp [encodeRaw, List.append_assoc]) rfl hk64 hkne hku
  have h2 : readExact f (F.length + 8 + k.length + 4) 8 =
      .ok (u64Be n, F.length + 8 + k.length + 4 + 8) :=
    readExact_spec (F ++ stringRecord k) (u64Be n) (w ++ C)
      (by rw [hf]; simp [encodeRaw, List.append_assoc])
      (by simp [stringRecord_length]; omega) rfl
  rw [scanLoop_eq_put hpos h1 h2 (u64Be_ne_tombstone hn64 hnne)
    (by rw [beDecode_u64Be hn64]; exact hnle)]
  rw [beDecode_u64Be hn64]
  have hq : F.length + 8 + k.length + 4 + 8 + (n + 4) % 2 ^ 64 =
      F.length + (encodeRaw (.rput k n w)).length := by
    rw [encodeRaw_rput_length]; omega
  rw [hq]

theorem scan_step_rdel {f F C k : List Nat} {i : Index}
    (hf : f = F ++ (encodeRaw (.rdel k) ++ C))
    (hk64 : k.length < 2 ^ 64) (hkne : k.length ≠ 2 ^ 63) (hku : validUtf8 k = true) :
    scanLoop f F.length i =
      scanLoop f (F.length + (encodeRaw (.rdel k)).length) (idxRemove i k) := by
  exact scan_step_del hf hk64 hkne hku

theorem read_check_string_oob {file : List Nat} {pos : Nat} (h : file.length < pos + 8) :
    read_check_string file pos = .error .ioError := by
  unfold read_check_string
  rw [readExact_oob h]

theorem scan_append_aux (file ext : List Nat) :
    ∀ (n pos : Nat) (idx out : Index), file.length - pos ≤ n →
      scanLoop file pos idx = .ok out →
      scanLoop (file ++ ext) pos idx = scanLoop (file ++ ext) file.length out := by
  intro n
  induction n with
  | zero =>
    intro pos idx out hle h
    by_cases hpos : pos = file.length
    · rw [scanLoop_eof hpos] at h
      injection h with h
      subst h hpos
      rfl
    · exfalso
      have hgt : file.length < pos := by omega
      rw [scanLoop_eq_rcs_err hpos (read_check_string_oob (by omega))] at h
      cases h
  | succ n ih =>
    intro pos idx out hle h
    by_cases hpos : pos = file.length
    · rw [scanLoop_eof hpos] at h
      injection h with h
      subst h hpos
      rfl
    · cases e1 : read_check_string file pos with
      | error e =>
        rw [scanLoop_eq_rcs_err hpos e1] at h
        cases h
      | ok r1 =>
        obtain ⟨v1, p1⟩ := r1
        cases v1 with
        | none =>
          rw [scanLoop_eq_tomb_key hpos e1] at h
          cases h
        | some k =>
          obtain ⟨hb8, hppos, hple⟩ := read_check_string_pos e1
          have hpos2 : pos ≠ (file ++ ext).length := by simp; omega
          cases e2 : readExact file p1 8 with
          | error e =>
            rw [scanLoop_eq_vread_err hpos e1 e2] at h
            cases h
          | ok r2 =>
            obtain ⟨encV, p2⟩ := r2
            obtain ⟨-, hp2, hb2⟩ := readExact_ok e2
            by_cases ht : encV = ENCODED_TOMBSTONE
            · subst ht
              rw [scanLoop_eq_del hpos e1 e2] at h
              rw [scanLoop_eq_del hpos2 (read_check_string_mono e1) (readExact_mono e2)]
              exact ih p2 _ out (by omega) h
            · by_cases hs : (beDecode encV + 4) % 2 ^ 64 ≤ I64_MAX
              · rw [scanLoop_eq_put hpos e1 e2 ht hs] at h
                rw [scanLoop_eq_put hpos2 (read_check_string_mono e1) (readExact_mono e2) ht hs]
                exact ih _ _ out (by omega) h
              · rw [scanLoop_eq_seek_err hpos e1 e2 ht hs] at h
                cases h

theorem scan_append {file : List Nat} (ext : List Nat) {idx out : Index} {pos : Nat}
    (h : scanLoop file pos idx = .ok out) :
    scanLoop (file ++ ext) pos idx = scanLoop (file ++ ext) file.length out :=
  scan_append_aux file ext file.length pos idx out (by omega) h


/-- The file written by a successful insert extends the old file by one
put entry whose value region carries the value and its CRC-32. -/
theorem insert_ok_shape {s : Segment} {k v : List Nat}
    (hv : v.length < TOMBSTONE) (hk : k.length ≤ U64_MAX) :
    Segment.insert s k v =
      (.ok (), { s with
        file := s.file ++ encodeEntry (.put k v (u32Be (crc32 v))),
        index := idxInsert s.index k s.file.length }) := by
  unfold Segment.insert
  rw [if_neg (by omega), if_neg (by omega)]
  simp only [append_string, encodeEntry, stringRecord, List.append_assoc]

/-- The file written by a delete extends the old file by one del entry. -/
theorem delete_file_shape (s : Segment) (k : List Nat) :
    (Segment.delete s k).2 =
      { s with file := s.file ++ encodeEntry (.del k), index := idxRemove s.index k } := by
  unfold Segment.delete
  simp only [append_string, append_deletion, encodeEntry, stringRecord, List.append_assoc]
  cases h : idxLookup s.index k <;> rfl

/-- A successful delete requires the key in the index. -/
theorem delete_ok_lookup {s : Segment} {k : List Nat}
    (h : (Segment.delete s k).1 = .ok ()) : ∃ off, idxLookup s.index k = some off := by
  unfold Segment.delete at h
  cases hl : idxLookup s.index k with
  | none => rw [hl] at h; cases h
  | some off => exact ⟨off, rfl⟩

theorem delete_absent {s : Segment} {k : List Nat}
    (h : idxLookup s.index k = none) :
    (Segment.delete s k).1 = .error .keyNotFound := by
  unfold Segment.delete
  rw [h]

/-- Preservation of the segment invariant by one successful operation. -/
theorem segWF_applyOp {s s2 : Segment} {o : Op}
    (hwf : SegWF s) (hop : ValidOp o) (h : applyOp s o = some s2) : SegWF s2 := by
  unfold SegWF index_from_disk at hwf ⊢
  cases o with
  | ins k v =>
    obtain ⟨hku, hk63, hv⟩ := hop
    simp only [applyOp] at h
    rw [insert_ok_shape (by unfold TOMBSTONE; omega) (by unfold U64_MAX; omega)] at h
    injection h with h
    subst h
    simp only
    have hstep := scan_append (encodeEntry (.put k v (u32Be (crc32 v)))) hwf
    rw [hstep]
    have h5 := scan_step_put (f := s.file ++ encodeEntry (.put k v (u32Be (crc32 v))))
      (F := s.file) (C := []) (i := s.index) (by rw [List.append_nil])
      (by omega) (by omega) hku (by unfold I64_MAX; omega) (u32Be_length _)
    rw [h5, scanLoop_eof (by simp)]
  | del k =>
    obtain ⟨hku, hk63⟩ := hop
    simp only [applyOp] at h
    cases hd : Segment.delete s k with
    | mk r s3 =>
      rw [hd] at h
      cases r with
      | error e => cases h
      | ok u =>
        injection h with h
        have hs3 : s3 =
            { s with file := s.file ++ encodeEntry (.del k), index := idxRemove s.index k } := by
          have h4 := delete_file_shape s k
          rw [hd] at h4
          exact h4
        subst h
        rw [hs3]
        simp only
        have hstep := scan_append (encodeEntry (.del k)) hwf
        rw [hstep]
        have h5 := scan_step_del (f := s.file ++ encodeEntry (.del k))
          (F := s.file) (C := []) (i := s.index) (by rw [List.append_nil])
          (by omega) (by omega) hku
        rw [h5, scanLoop_eof (by simp)]

/-- Preservation of the segment invariant by a successful run. -/
theorem segWF_runOps {s s2 : Segment} {ops : List Op}
    (hwf : SegWF s) (hops : ∀ op ∈ ops, ValidOp op) (h : runOps s ops = some s2) :
    SegWF s2 := by
  induction ops generalizing s with
  | nil =>
    unfold runOps at h
    injection h with h
    subst h
    exact hwf
  | cons op rest ih =>
    unfold runOps at h
    cases ha : applyOp s op with
    | none => rw [ha] at h; cases h
    | some s3 =>
      rw [ha] at h
      exact ih (segWF_applyOp hwf (hops op (by simp)) ha) (fun o ho => hops o (by simp [ho])) h


/-! ## Claims: round trip, size guards, delete atomicity -/

/-- After a successful insert, `get` of the same key returns the value. -/
theorem get_after_insert {s : Segment} {k v : List Nat}
    (hk : k.length ≤ U64_MAX) (hv : v.length < TOMBSTONE) (hu : validUtf8 v = true) :
    Segment.get (Segment.insert s k v).2 k = .ok v := by
  rw [insert_ok_shape hv hk]
  unfold Segment.get
  simp only
  rw [idxLookup_insert_self]
  dsimp only
  have hr : read_string_at_offset
      (s.file ++ encodeEntry (.put k v (u32Be (crc32 v))))
      (s.file.length + ENCODED_LEN_SIZE + k.length + CRC32_SIZE) = .ok (some v) := by
    unfold read_string_at_offset
    rw [read_check_string_record (s.file ++ stringRecord k) [] v
      (by simp [encodeEntry, stringRecord, List.append_assoc])
      (by simp [stringRecord_length, ENCODED_LEN_SIZE, CRC32_SIZE]; omega)
      (by unfold TOMBSTONE at hv; omega) (by unfold TOMBSTONE at hv; omega) hu]
  rw [hr]

/-- C1: for every segment state and every key and value, with the value
shorter than `2^63` bytes (and the Rust-side type invariants: the value is
valid UTF-8 and the key length fits in a `usize`), `insert` succeeds and a
subsequent `get` of the key returns exactly that value. -/
theorem c1_insert_get_roundtrip (s : Segment) (k v : List Nat)
    (hk : k.length ≤ U64_MAX) (hv : v.length < 2 ^ 63) (hu : validUtf8 v = true) :
    (Segment.insert s k v).1 = .ok () ∧
      Segment.get (Segment.insert s k v).2 k = .ok v := by
  have hv2 : v.length < TOMBSTONE := by unfold TOMBSTONE; omega
  refine ⟨?_, get_after_insert hk hv2 hu⟩
  rw [insert_ok_shape hv2 hk]

/-- Witness for C1 at a concrete segment and pair. -/
theorem c1_witness :
    [107].length ≤ U64_MAX ∧ [118, 118].length < 2 ^ 63 ∧ validUtf8 [118, 118] = true ∧
      ((Segment.insert emptySeg [107] [118, 118]).1 = .ok () ∧
        Segment.get (Segment.insert emptySeg [107] [118, 118]).2 [107] = .ok [118, 118]) :=
  ⟨by decide, by decide, by decide,
    c1_insert_get_roundtrip emptySeg [107] [118, 118] (by decide) (by decide) (by decide)⟩

/-- C6: a value whose byte length is at least `2^63` is rejected with
value-exceeds-max-size and the segment (file and index) is unchanged. -/
theorem c6_value_too_large (s : Segment) (k v : List Nat) (hv : v.length ≥ 2 ^ 63) :
    Segment.insert s k v = (.error .valueExceedsMaxSize, s) := by
  unfold Segment.insert
  rw [if_pos (by unfold TOMBSTONE; omega)]

/-- Witness for C6: a value of exactly `2^63` zero bytes is rejected and
the segment is untouched. -/
theorem c6_witness :
    (List.replicate (2 ^ 63) 0).length ≥ 2 ^ 63 ∧
      Segment.insert emptySeg [107] (List.replicate (2 ^ 63) 0) =
        (.error .valueExceedsMaxSize, emptySeg) :=
  ⟨by rw [List.length_replicate], c6_value_too_large emptySeg [107] _
    (by rw [List.length_replicate])⟩

/-- C10: for any key whose length fits in a `usize` (at most `u64::MAX`,
true of every Rust byte slice) and any value below the tombstone bound,
`insert` never reports key-exceeds-max-size: the guard comparing the key
length against `u64::MAX` cannot fire. -/
theorem c10_key_guard_unreachable (s : Segment) (k v : List Nat)
    (hk : k.length < 2 ^ 64) (hv : v.length < 2 ^ 63) :
    (Segment.insert s k v).1 ≠ .error .keyExceedsMaxSize := by
  unfold Segment.insert
  rw [if_neg (by unfold TOMBSTONE; omega), if_neg (by unfold U64_MAX; omega)]
  intro h
  cases h

/-- Witness for C10 at a concrete input. -/
theorem c10_witness :
    [104, 105].length < 2 ^ 64 ∧ [118].length < 2 ^ 63 ∧
      (Segment.insert emptySeg [104, 105] [118]).1 ≠ .error .keyExceedsMaxSize :=
  ⟨by decide, by decide,
    c10_key_guard_unreachable emptySeg [104, 105] [118] (by decide) (by decide)⟩

/-- C5 counterexample: deleting a key absent from the index does fail with
key-not-found, but the file contents change: the key record and a
tombstone have already been appended when the lookup fails, so the claim
that a failed delete leaves the file unchanged is false. -/
theorem c5_counterexample :
    (Segment.delete emptySeg [97]).1 = .error .keyNotFound ∧
      (Segment.delete emptySeg [97]).2.file ≠ emptySeg.file := by
  constructor
  · decide
  · decide

/-- C5 (amended): delete on a key absent from the index fails with
key-not-found and leaves the index unchanged, but appends the key record
followed by the tombstone to the file. -/
theorem c5_delete_absent (s : Segment) (k : List Nat)
    (h : idxLookup s.index k = none) :
    (Segment.delete s k).1 = .error .keyNotFound ∧
      (Segment.delete s k).2.index = s.index ∧
      (Segment.delete s k).2.file = s.file ++ (stringRecord k ++ ENCODED_TOMBSTONE) := by
  refine ⟨delete_absent h, ?_, ?_⟩
  · rw [delete_file_shape]
    exact idxRemove_absent h
  · rw [delete_file_shape]
    simp [encodeEntry]

/-- Witness for the amended C5 at a concrete segment and key. -/
theorem c5_witness :
    idxLookup emptySeg.index [97] = none ∧
      ((Segment.delete emptySeg [97]).1 = .error .keyNotFound ∧
        (Segment.delete emptySeg [97]).2.index = emptySeg.index ∧
        (Segment.delete emptySeg [97]).2.file =
          emptySeg.file ++ (stringRecord [97] ++ ENCODED_TOMBSTONE)) :=
  ⟨by decide, c5_delete_absent emptySeg [97] (by decide)⟩


/-! ## Claims: reopen preserves state, overwrite -/

instance instDecValidOp (op : Op) : Decidable (ValidOp op) :=
  match op with
  | .ins k v => inferInstanceAs
      (Decidable (validUtf8 k = true ∧ k.length < 2 ^ 63 ∧ v.length < 2 ^ 63 - 4))
  | .del k => inferInstanceAs (Decidable (validUtf8 k = true ∧ k.length < 2 ^ 63))

theorem encodeEntry_put (k vb cb : List Nat) :
    encodeEntry (.put k vb cb) = stringRecord k ++ (u64Be vb.length ++ (vb ++ cb)) := rfl

theorem encodeEntry_del (k : List Nat) :
    encodeEntry (.del k) = stringRecord k ++ ENCODED_TOMBSTONE := rfl

/-- The invariant holds for a fresh (empty-file) segment. -/
theorem segWF_empty : SegWF emptySeg := by
  unfold SegWF index_from_disk emptySeg
  exact scanLoop_eof (by simp)

/-- C2 (amended): starting from any segment satisfying its invariant, a
sequence of successful inserts and deletes (with keys and values subject
to the Rust type invariants, and inserted values shorter than
`2^63 - 4` bytes so that the reconstruction scan's `i64` seek conversion
succeeds) leaves a file whose fresh scan rebuilds exactly the live
in-memory index: same key set and the same offset for every key. -/
theorem c2_reopen_preserves_index (s s2 : Segment) (ops : List Op)
    (hwf : SegWF s) (hops : ∀ op ∈ ops, ValidOp op) (h : runOps s ops = some s2) :
    index_from_disk s2.file = .ok s2.index :=
  segWF_runOps hwf hops h

/-- Witness for the amended C2 on a concrete operation sequence. -/
theorem c2_witness :
    runOps emptySeg c2OpsEx = some c2SegEx ∧
      index_from_disk c2SegEx.file = .ok c2SegEx.index :=
  ⟨by decide,
    c2_reopen_preserves_index emptySeg c2SegEx c2OpsEx segWF_empty (by decide) (by decide)⟩

/-- A scan fails with `SeekError` as soon as the first entry carries a
value length for which `value_len + 4` exceeds `i64::MAX`. -/
theorem scan_bigvalue_err {f C k b : List Nat}
    (hf : f = stringRecord k ++ (u64Be b.length ++ (b ++ C)))
    (hk64 : k.length < 2 ^ 64) (hkne : k.length ≠ 2 ^ 63) (hku : validUtf8 k = true)
    (hvb64 : b.length < 2 ^ 64) (hvbne : b.length ≠ 2 ^ 63)
    (hw : b.length + 4 < 2 ^ 64) (hbig : ¬ b.length + 4 ≤ I64_MAX) :
    index_from_disk f = .error .seekError := by
  have hlen : f.length = 8 + k.length + 4 + 8 + b.length + C.length := by
    subst hf; simp [stringRecord_length, u64Be_length]; omega
  have hpos : 0 ≠ f.length := by omega
  have h1 : read_check_string f 0 = .ok (some k, 0 + 8 + k.length + 4) :=
    read_check_string_record [] (u64Be b.length ++ (b ++ C)) k (by simp [hf]) rfl
      hk64 hkne hku
  have h2 : readExact f (0 + 8 + k.length + 4) 8 =
      .ok (u64Be b.length, 0 + 8 + k.length + 4 + 8) :=
    readExact_spec (stringRecord k) (u64Be b.length) (b ++ C)
      (by simp [hf]) (by simp [stringRecord_length]) rfl
  unfold index_from_disk
  exact scanLoop_eq_seek_err hpos h1 h2 (u64Be_ne_tombstone hvb64 hvbne)
    (by rw [beDecode_u64Be hvb64, Nat.mod_eq_of_lt hw]; exact hbig)

/-- C2 counterexample: a single successful insert of a value of
`2^63 - 3` bytes (accepted by the insert guard, which only rejects
lengths of `2^63` and above) produces a live index mapping the key to
offset 0, while a fresh scan of the same f fails with `SeekError`
because `value_len + 4` does not fit in an `i64`.  The rebuilt index is
therefore not equal to the live one, refuting the claim as stated. -/
theorem c2_counterexample :
    (Segment.insert emptySeg [107] (List.replicate (2 ^ 63 - 3) 0)).1 = .ok () ∧
      (Segment.insert emptySeg [107] (List.replicate (2 ^ 63 - 3) 0)).2.index =
        [([107], 0)] ∧
      index_from_disk (Segment.insert emptySeg [107] (List.replicate (2 ^ 63 - 3) 0)).2.file =
        .error .seekError := by
  have hv : (List.replicate (2 ^ 63 - 3) (0 : Nat)).length < TOMBSTONE := by
    rw [List.length_replicate]; unfold TOMBSTONE; omega
  have hk : ([107] : List Nat).length ≤ U64_MAX := by unfold U64_MAX; simp
  have hshape := insert_ok_shape (s := emptySeg) (k := [107])
    (v := List.replicate (2 ^ 63 - 3) 0) hv hk
  have hfile : (Segment.insert emptySeg [107] (List.replicate (2 ^ 63 - 3) 0)).2.file =
      stringRecord [107] ++ (u64Be (List.replicate (2 ^ 63 - 3) (0 : Nat)).length ++
        (List.replicate (2 ^ 63 - 3) 0 ++ u32Be (crc32 (List.replicate (2 ^ 63 - 3) 0)))) := by
    rw [hshape]
    show ([] : List Nat) ++ encodeEntry (.put [107] (List.replicate (2 ^ 63 - 3) 0)
      (u32Be (crc32 (List.replicate (2 ^ 63 - 3) 0)))) = _
    rw [List.nil_append, encodeEntry_put]
  refine ⟨by rw [hshape], by rw [hshape]; rfl, ?_⟩
  rw [hfile]
  exact scan_bigvalue_err (k := [107]) (b := List.replicate (2 ^ 63 - 3) 0)
    (C := u32Be (crc32 (List.replicate (2 ^ 63 - 3) 0))) rfl
    (by decide) (by decide) (by decide)
    (by rw [List.length_replicate]; omega)
    (by rw [List.length_replicate]; omega)
    (by rw [List.length_replicate]; omega)
    (by rw [List.length_replicate]; unfold I64_MAX; omega)


/-- C3 (amended): overwriting a key (both values shorter than `2^63 - 4`
bytes) makes `get` return the second value only, the live index maps the
key to the offset of the second entry (the length of the file before the
second insert), and the index rebuilt from disk equals the live one, so
the first physical record is unreachable through either path. -/
theorem c3_overwrite (s : Segment) (k v1 v2 : List Nat)
    (hwf : SegWF s) (hku : validUtf8 k = true) (hk : k.length < 2 ^ 63)
    (hv1 : v1.length < 2 ^ 63 - 4) (hv2 : v2.length < 2 ^ 63 - 4)
    (hu2 : validUtf8 v2 = true) :
    (Segment.insert s k v1).1 = .ok () ∧
      (Segment.insert (Segment.insert s k v1).2 k v2).1 = .ok () ∧
      Segment.get (Segment.insert (Segment.insert s k v1).2 k v2).2 k = .ok v2 ∧
      idxLookup (Segment.insert (Segment.insert s k v1).2 k v2).2.index k =
        some (Segment.insert s k v1).2.file.length ∧
      index_from_disk (Segment.insert (Segment.insert s k v1).2 k v2).2.file =
        .ok (Segment.insert (Segment.insert s k v1).2 k v2).2.index := by
  have hk2 : k.length ≤ U64_MAX := by unfold U64_MAX; omega
  have hv1t : v1.length < TOMBSTONE := by unfold TOMBSTONE; omega
  have hv2t : v2.length < TOMBSTONE := by unfold TOMBSTONE; omega
  have ha1 : applyOp s (.ins k v1) = some (Segment.insert s k v1).2 := by
    simp only [applyOp]
    rw [insert_ok_shape hv1t hk2]
  have w1 : SegWF (Segment.insert s k v1).2 :=
    segWF_applyOp hwf (o := .ins k v1) ⟨hku, hk, hv1⟩ ha1
  have ha2 : applyOp (Segment.insert s k v1).2 (.ins k v2) =
      some (Segment.insert (Segment.insert s k v1).2 k v2).2 := by
    simp only [applyOp]
    rw [insert_ok_shape hv2t hk2]
  have w2 : SegWF (Segment.insert (Segment.insert s k v1).2 k v2).2 :=
    segWF_applyOp w1 (o := .ins k v2) ⟨hku, hk, hv2⟩ ha2
  refine ⟨by rw [insert_ok_shape hv1t hk2], by rw [insert_ok_shape hv2t hk2],
    get_after_insert hk2 hv2t hu2, ?_, w2⟩
  rw [insert_ok_shape hv2t hk2 (s := (Segment.insert s k v1).2)]
  exact idxLookup_insert_self _ _ _

/-- Witness for the amended C3 on concrete data. -/
theorem c3_witness :
    validUtf8 [107] = true ∧
      ((Segment.insert emptySeg [107] [97]).1 = .ok () ∧
        (Segment.insert (Segment.insert emptySeg [107] [97]).2 [107] [98, 99]).1 = .ok () ∧
        Segment.get (Segment.insert (Segment.insert emptySeg [107] [97]).2 [107] [98, 99]).2
          [107] = .ok [98, 99] ∧
        idxLookup (Segment.insert (Segment.insert emptySeg [107] [97]).2 [107] [98, 99]).2.index
          [107] = some (Segment.insert emptySeg [107] [97]).2.file.length ∧
        index_from_disk
          (Segment.insert (Segment.insert emptySeg [107] [97]).2 [107] [98, 99]).2.file =
          .ok (Segment.insert (Segment.insert emptySeg [107] [97]).2 [107] [98, 99]).2.index) :=
  ⟨by decide,
    c3_overwrite emptySeg [107] [97] [98, 99] segWF_empty (by decide) (by decide)
      (by decide) (by decide) (by decide)⟩

/-- C3 counterexample: with a first value of `2^63 - 3` bytes (inside the
claim's stated bound of `2^63`) and a second small value, both inserts
succeed and `get` returns the second value, but `index_from_disk` fails
with `SeekError` while skipping the first record, so the rebuilt index
does not map the key to the offset of the second entry. -/
theorem c3_counterexample :
    (Segment.insert emptySeg [107] (List.replicate (2 ^ 63 - 3) 0)).1 = .ok () ∧
      (Segment.insert (Segment.insert emptySeg [107] (List.replicate (2 ^ 63 - 3) 0)).2
        [107] [118]).1 = .ok () ∧
      Segment.get (Segment.insert
        (Segment.insert emptySeg [107] (List.replicate (2 ^ 63 - 3) 0)).2 [107] [118]).2
        [107] = .ok [118] ∧
      index_from_disk (Segment.insert
        (Segment.insert emptySeg [107] (List.replicate (2 ^ 63 - 3) 0)).2 [107] [118]).2.file =
        .error .seekError := by
  have hv : (List.replicate (2 ^ 63 - 3) (0 : Nat)).length < TOMBSTONE := by
    rw [List.length_replicate]; unfold TOMBSTONE; omega
  have hv2 : ([118] : List Nat).length < TOMBSTONE := by unfold TOMBSTONE; simp
  have hk : ([107] : List Nat).length ≤ U64_MAX := by unfold U64_MAX; simp
  have hshape := insert_ok_shape (s := emptySeg) (k := [107])
    (v := List.replicate (2 ^ 63 - 3) 0) hv hk
  have hshape2 := insert_ok_shape
    (s := (Segment.insert emptySeg [107] (List.replicate (2 ^ 63 - 3) 0)).2)
    (k := [107]) (v := [118]) hv2 hk
  have hfile : (Segment.insert
      (Segment.insert emptySeg [107] (List.replicate (2 ^ 63 - 3) 0)).2 [107] [118]).2.file =
      stringRecord [107] ++ (u64Be (List.replicate (2 ^ 63 - 3) (0 : Nat)).length ++
        (List.replicate (2 ^ 63 - 3) 0 ++ (u32Be (crc32 (List.replicate (2 ^ 63 - 3) 0)) ++
          encodeEntry (.put [107] [118] (u32Be (crc32 [118])))))) := by
    rw [hshape2]
    show (Segment.insert emptySeg [107] (List.replicate (2 ^ 63 - 3) 0)).2.file ++
      encodeEntry (.put [107] [118] (u32Be (crc32 [118]))) = _
    rw [hshape]
    show (([] : List Nat) ++ encodeEntry (.put [107] (List.replicate (2 ^ 63 - 3) 0)
      (u32Be (crc32 (List.replicate (2 ^ 63 - 3) 0))))) ++
      encodeEntry (.put [107] [118] (u32Be (crc32 [118]))) = _
    rw [List.nil_append, encodeEntry_put, List.append_assoc, List.append_assoc,
      List.append_assoc]
  refine ⟨by rw [hshape], by rw [hshape2], get_after_insert hk hv2 (by decide), ?_⟩
  rw [hfile]
  exact scan_bigvalue_err (k := [107]) (b := List.replicate (2 ^ 63 - 3) 0)
    (C := u32Be (crc32 (List.replicate (2 ^ 63 - 3) 0)) ++
      encodeEntry (.put [107] [118] (u32Be (crc32 [118])))) rfl
    (by decide) (by decide) (by decide)
    (by rw [List.length_replicate]; omega)
    (by rw [List.length_replicate]; omega)
    (by rw [List.length_replicate]; omega)
    (by rw [List.length_replicate]; unfold I64_MAX; omega)


/-! ## Claims: store-level get, delete-then-get, checksum reporting -/

theorem getFromList_eq (l : List Segment) (key : List Nat) :
    getFromList l key =
      (match l.findSome? (fun s => getOpt s key) with
        | some v => .ok v
        | none => .error .keyNotFound) := by
  induction l with
  | nil => simp [getFromList, List.findSome?]
  | cons s rest ih =>
    simp only [getFromList, List.findSome?_cons]
    cases h : Segment.get s key with
    | ok v => simp [getOpt, h]
    | error e => simp [getOpt, h, ih]

theorem findSome_none_iff (l : List Segment) (key : List Nat) :
    l.findSome? (fun s => getOpt s key) = none ↔ ∀ s ∈ l, getOpt s key = none := by
  induction l with
  | nil => simp
  | cons s rest ih =>
    simp only [List.findSome?_cons]
    cases h : getOpt s key with
    | some v => simp [h]
    | none => simp [h, ih]

/-- C8: `SunsetDB::get` scans the segments newest first (the reverse of
the stored, oldest-first order) and returns the first per-segment success
(`findSome?` on the reversed list); it reports key-not-found exactly when
every per-segment lookup misses or errors. -/
theorem c8_store_get_order (db : SunsetDB) (key : List Nat) :
    SunsetDB.get db key =
      (match db.segments.reverse.findSome? (fun s => getOpt s key) with
        | some v => .ok v
        | none => .error .keyNotFound) ∧
    (SunsetDB.get db key = .error .keyNotFound ↔
      ∀ s ∈ db.segments, getOpt s key = none) := by
  have he : SunsetDB.get db key =
      (match db.segments.reverse.findSome? (fun s => getOpt s key) with
        | some v => (.ok v : Except GetError (List Nat))
        | none => .error .keyNotFound) := getFromList_eq db.segments.reverse key
  refine ⟨he, ?_⟩
  have key_iff : (match db.segments.reverse.findSome? (fun s => getOpt s key) with
      | some v => (.ok v : Except GetError (List Nat))
      | none => .error .keyNotFound) = .error .keyNotFound ↔
      db.segments.reverse.findSome? (fun s => getOpt s key) = none := by
    cases h : db.segments.reverse.findSome? (fun s => getOpt s key) with
    | some v => simp
    | none => simp
  rw [he, key_iff, findSome_none_iff]
  constructor
  · intro hall s hs
    exact hall s (by simpa [List.mem_reverse] using hs)
  · intro hall s hs
    exact hall s (by simpa [List.mem_reverse] using hs)


/-- C7 counterexample: in a store holding two segments that both contain
the key (as after opening a directory with two segment files),
`delete` targets the oldest segment and succeeds, yet `get` still
returns the value from the newer segment instead of key-not-found. -/
theorem c7_counterexample :
    (SunsetDB.delete dbTwo [107]).1 = .ok () ∧
      SunsetDB.get (SunsetDB.delete dbTwo [107]).2 [107] = .ok [118] := by
  constructor
  · decide
  · decide

/-- C7 (amended): in a single-segment store (the only kind the current
code ever creates for writes), a successful `delete(key)` makes a
subsequent `get(key)` fail with key-not-found; and `delete` of a key
absent from the segment index fails with key-not-found.  In
multi-segment stores the first half fails, because `delete` targets the
oldest segment while `get` prefers the newest. -/
theorem c7_delete_then_get (s : Segment) (n : Nat) (k : List Nat) :
    ((SunsetDB.delete ⟨[s], n⟩ k).1 = .ok () →
      SunsetDB.get (SunsetDB.delete ⟨[s], n⟩ k).2 k = .error .keyNotFound) ∧
    (idxLookup s.index k = none →
      (SunsetDB.delete ⟨[s], n⟩ k).1 = .error .keyNotFound) := by
  have hd : SunsetDB.delete ⟨[s], n⟩ k =
      ((Segment.delete s k).1, ⟨[(Segment.delete s k).2], n⟩) := by
    unfold SunsetDB.delete
    rfl
  constructor
  · intro hok
    rw [hd]
    have hget : Segment.get (Segment.delete s k).2 k = .error .keyNotFound := by
      rw [delete_file_shape]
      unfold Segment.get
      simp only
      rw [idxLookup_remove_self]
    unfold SunsetDB.get
    simp only [List.reverse_singleton]
    unfold getFromList
    rw [hget]
    rfl
  · intro habs
    rw [hd]
    exact delete_absent habs

/-- Witness for the amended C7 at concrete inputs: a one-segment store
holding the key for the first half, an empty segment for the second. -/
theorem c7_witness :
    SunsetDB.get (SunsetDB.delete ⟨[segK], 1⟩ [107]).2 [107] = .error .keyNotFound ∧
      (SunsetDB.delete ⟨[emptySeg], 1⟩ [96]).1 = .error .keyNotFound :=
  ⟨(c7_delete_then_get segK 1 [107]).1 (by decide),
    (c7_delete_then_get emptySeg 1 [96]).2 (by decide)⟩

/-- C4 (amended): when the value record a key points at has a stored
checksum different from the CRC-32 recomputed over the stored bytes,
`Segment::get` fails with an invalid-checksum read error carrying the
recomputed value as `expected` and the stored one as `found`; but
`SunsetDB::get` swallows per-segment errors, so at the store level the
mismatch is reported as key-not-found. -/
theorem c4_checksum_mismatch (s : Segment) (k A vb cb C : List Nat) (off n : Nat)
    (hlook : idxLookup s.index k = some off)
    (hf : s.file = A ++ (u64Be vb.length ++ (vb ++ (cb ++ C))))
    (hA : A.length = off + ENCODED_LEN_SIZE + k.length + CRC32_SIZE)
    (hvb : vb.length < 2 ^ 63) (hcb : cb.length = 4)
    (hbad : beDecode cb ≠ crc32 vb) :
    Segment.get s k = .error (.readError (.invalidChecksum (crc32 vb) (beDecode cb))) ∧
      SunsetDB.get ⟨[s], n⟩ k = .error .keyNotFound := by
  have hget : Segment.get s k =
      .error (.readError (.invalidChecksum (crc32 vb) (beDecode cb))) := by
    unfold Segment.get
    rw [hlook]
    dsimp only
    have hrcs := read_check_string_badcrc A vb cb C
      (p := off + ENCODED_LEN_SIZE + k.length + CRC32_SIZE) hf
      (by rw [hA]) (by omega) (by omega) hcb hbad
    unfold read_string_at_offset
    rw [hrcs]
  refine ⟨hget, ?_⟩
  unfold SunsetDB.get
  simp only [List.reverse_singleton]
  unfold getFromList
  rw [hget]
  rfl

/-- C4 counterexample: a store whose only segment holds the key `[107]`
with a corrupted value checksum (stored bytes `[9, 9, 9, 9]`).  The
segment-level `get` reports the invalid checksum with expected and found
values, the segment is exactly what a reopen reconstructs (the scan does
not verify value checksums), yet `SunsetDB::get` returns key-not-found,
so the mismatch is silently converted at the store level. -/
theorem c4_counterexample :
    Segment.get segBad [107] =
      .error (.readError (.invalidChecksum (crc32 [118]) (beDecode [9, 9, 9, 9]))) ∧
      index_from_disk segBad.file = .ok segBad.index ∧
      SunsetDB.get ⟨[segBad], 8⟩ [107] = .error .keyNotFound := by
  refine ⟨by decide, ?_, by decide⟩
  have hstep := scan_step_put (f := segBad.file) (F := []) (C := [])
    (k := [107]) (b := [118]) (c := [9, 9, 9, 9]) (i := [])
    (by show segBad.file = [] ++ (encodeEntry (.put [107] [118] [9, 9, 9, 9]) ++ [])
        simp [segBad])
    (by decide) (by decide) (by decide) (by decide) (by decide)
  unfold index_from_disk
  have h0 : (0 : Nat) = ([] : List Nat).length := rfl
  rw [show scanLoop segBad.file 0 [] =
      scanLoop segBad.file ([] : List Nat).length [] from rfl, hstep,
    scanLoop_eof (by simp [segBad, encodeEntry_put_length])]
  decide


/-- Witness for the amended C4 at the concrete corrupted segment. -/
theorem c4_witness :
    Segment.get segBad [107] =
      .error (.readError (.invalidChecksum (crc32 [118]) (beDecode [9, 9, 9, 9]))) ∧
      SunsetDB.get ⟨[segBad], 8⟩ [107] = .error .keyNotFound :=
  c4_checksum_mismatch segBad [107] (stringRecord [107]) [118] [9, 9, 9, 9] [] 0 8
    (by decide) (by decide) (by decide) (by decide) (by decide) (by decide)

/-! ## Claim: exactness of the reconstruction scan -/

theorem scan_entries_aux (es : List Entry) : ∀ (F : List Nat) (idx : Index),
    (∀ e ∈ es, EntryWF e) →
    scanLoop (F ++ encodeEntries es) F.length idx =
      .ok (replayEntries es F.length idx) := by
  induction es with
  | nil =>
    intro F idx _
    simp only [encodeEntries, List.append_nil, replayEntries]
    exact scanLoop_eof rfl
  | cons e es ih =>
    intro F idx h
    have hassoc : F ++ encodeEntries (e :: es) = (F ++ encodeEntry e) ++ encodeEntries es := by
      simp only [encodeEntries]
      rw [List.append_assoc]
    have hpos : F.length + (encodeEntry e).length = (F ++ encodeEntry e).length := by
      simp
    cases e with
    | put k vb cb =>
      obtain ⟨hku, hk64, hkne, hvb, hcb⟩ := h (Entry.put k vb cb) (by simp)
      have hstep := scan_step_put (f := F ++ encodeEntries (.put k vb cb :: es))
        (F := F) (C := encodeEntries es) (i := idx) rfl hk64 hkne hku hvb hcb
      rw [hstep]
      simp only [replayEntries, applyEntry]
      rw [hassoc, hpos]
      exact ih (F ++ encodeEntry (.put k vb cb)) (idxInsert idx k F.length)
        (fun x hx => h x (by simp [hx]))
    | del k =>
      obtain ⟨hku, hk64, hkne⟩ := h (Entry.del k) (by simp)
      have hstep := scan_step_del (f := F ++ encodeEntries (.del k :: es))
        (F := F) (C := encodeEntries es) (i := idx) rfl hk64 hkne hku
      rw [hstep]
      simp only [replayEntries, applyEntry]
      rw [hassoc, hpos]
      exact ih (F ++ encodeEntry (.del k)) (idxRemove idx k)
        (fun x hx => h x (by simp [hx]))

theorem scan_entries (es : List Entry) (h : ∀ e ∈ es, EntryWF e) :
    index_from_disk (encodeEntries es) = .ok (replayEntries es 0 []) := by
  unfold index_from_disk
  have := scan_entries_aux es [] [] h
  simpa using this


theorem scan_raws_aux (rs : List RawEntry) : ∀ (F : List Nat) (idx : Index),
    (∀ e ∈ rs, RawWF e) →
    scanLoop (F ++ encodeRaws rs) F.length idx =
      .ok (replayRaws rs F.length idx) := by
  induction rs with
  | nil =>
    intro F idx _
    simp only [encodeRaws, List.append_nil, replayRaws]
    exact scanLoop_eof rfl
  | cons e rs ih =>
    intro F idx h
    have hassoc : F ++ encodeRaws (e :: rs) = (F ++ encodeRaw e) ++ encodeRaws rs := by
      simp only [encodeRaws]
      rw [List.append_assoc]
    have hpos : F.length + (encodeRaw e).length = (F ++ encodeRaw e).length := by
      simp
    cases e with
    | rput k n w =>
      obtain ⟨hku, hk64, hkne, hn64, hnne, hnle, hwl⟩ := h (RawEntry.rput k n w) (by simp)
      have hstep := scan_step_rput (f := F ++ encodeRaws (.rput k n w :: rs))
        (F := F) (C := encodeRaws rs) (i := idx) rfl hk64 hkne hku hn64 hnne hnle hwl
      rw [hstep]
      simp only [replayRaws, applyRaw]
      rw [hassoc, hpos]
      exact ih (F ++ encodeRaw (.rput k n w)) (idxInsert idx k F.length)
        (fun x hx => h x (by simp [hx]))
    | rdel k =>
      obtain ⟨hku, hk64, hkne⟩ := h (RawEntry.rdel k) (by simp)
      have hstep := scan_step_rdel (f := F ++ encodeRaws (.rdel k :: rs))
        (F := F) (C := encodeRaws rs) (i := idx) rfl hk64 hkne hku
      rw [hstep]
      simp only [replayRaws, applyRaw]
      rw [hassoc, hpos]
      exact ih (F ++ encodeRaw (.rdel k)) (idxRemove idx k)
        (fun x hx => h x (by simp [hx]))

theorem scan_raws (rs : List RawEntry) (h : ∀ e ∈ rs, RawWF e) :
    index_from_disk (encodeRaws rs) = .ok (replayRaws rs 0 []) := by
  unfold index_from_disk
  have := scan_raws_aux rs [] [] h
  simpa using this


theorem beDecodeAux_lt : ∀ (l : List Nat) (a : Nat), (∀ x ∈ l, x < 256) →
    l.foldl (fun a b => a * 256 + b) a < (a + 1) * 256 ^ l.length := by
  intro l
  induction l with
  | nil => intro a _; simp
  | cons b t ih =>
    intro a h
    simp only [List.foldl, List.length_cons]
    have hb : b < 256 := h b (by simp)
    have := ih (a * 256 + b) (fun x hx => h x (by simp [hx]))
    calc t.foldl (fun a b => a * 256 + b) (a * 256 + b) < (a * 256 + b + 1) * 256 ^ t.length :=
          this
      _ ≤ (a + 1) * 256 ^ (t.length + 1) := by
          rw [pow_succ]
          have h2 : a * 256 + b + 1 ≤ (a + 1) * 256 := by omega
          calc (a * 256 + b + 1) * 256 ^ t.length ≤ (a + 1) * 256 * 256 ^ t.length :=
                Nat.mul_le_mul_right _ h2
            _ = (a + 1) * (256 ^ t.length * 256) := by ring
            _ = (a + 1) * 256 ^ (t.length + 1) := by rw [pow_succ]
  
theorem beDecode_lt {l : List Nat} (h : ∀ x ∈ l, x < 256) :
    beDecode l < 256 ^ l.length := by
  have := beDecodeAux_lt l 0 h
  simpa [beDecode] using this

theorem u64Be_beDecode {l : List Nat} (hl : l.length = 8) (hb : ∀ x ∈ l, x < 256) :
    u64Be (beDecode l) = l := by
  rcases l with _ | ⟨a, _ | ⟨b, _ | ⟨c, _ | ⟨d, _ | ⟨e, _ | ⟨f, _ | ⟨g, _ | ⟨h, _ | ⟨i, t⟩⟩⟩⟩⟩⟩⟩⟩⟩ <;>
    simp only [List.length_nil, List.length_cons] at hl
  · omega
  · omega
  · omega
  · omega
  · omega
  · omega
  · omega
  · omega
  · have ha : a < 256 := hb a (by simp)
    have hbb : b < 256 := hb b (by simp)
    have hc : c < 256 := hb c (by simp)
    have hd : d < 256 := hb d (by simp)
    have he : e < 256 := hb e (by simp)
    have hf : f < 256 := hb f (by simp)
    have hg : g < 256 := hb g (by simp)
    have hh : h < 256 := hb h (by simp)
    simp only [beDecode, List.foldl, u64Be, List.cons.injEq, and_true]
    omega
  · omega

theorem u32Be_beDecode {l : List Nat} (hl : l.length = 4) (hb : ∀ x ∈ l, x < 256) :
    u32Be (beDecode l) = l := by
  rcases l with _ | ⟨a, _ | ⟨b, _ | ⟨c, _ | ⟨d, _ | ⟨e, t⟩⟩⟩⟩⟩ <;>
    simp only [List.length_nil, List.length_cons] at hl
  · omega
  · omega
  · omega
  · omega
  · have ha : a < 256 := hb a (by simp)
    have hbb : b < 256 := hb b (by simp)
    have hc : c < 256 := hb c (by simp)
    have hd : d < 256 := hb d (by simp)
    simp only [beDecode, List.foldl, u32Be, List.cons.injEq, and_true]
    omega
  · omega


theorem read_check_string_short2 {file A B C : List Nat} {pos : Nat}
    (hf : file = A ++ (B ++ C)) (hp : pos = A.length) (hB : B.length = 8)
    (hBne : B ≠ ENCODED_TOMBSTONE)
    (hshort : file.length < pos + 8 + beDecode B) :
    read_check_string file pos = .error .ioError := by
  unfold read_check_string
  rw [readExact_spec A B C hf hp hB.symm]
  dsimp only
  rw [if_neg hBne, readExact_oob hshort]

theorem read_check_string_short3 {file A B D C : List Nat} {pos : Nat}
    (hf : file = A ++ (B ++ (D ++ C))) (hp : pos = A.length) (hB : B.length = 8)
    (hBne : B ≠ ENCODED_TOMBSTONE) (hD : D.length = beDecode B)
    (hshort : file.length < pos + 8 + beDecode B + 4) :
    read_check_string file pos = .error .ioError := by
  unfold read_check_string
  rw [readExact_spec A B (D ++ C) hf hp hB.symm]
  dsimp only
  rw [if_neg hBne]
  rw [readExact_spec (A ++ B) D C (by rw [hf, List.append_assoc]) (by simp [hp, hB]) hD.symm]
  dsimp only
  rw [readExact_oob (by omega)]

/-- Reading a key record truncated before its end fails with an IO
(end-of-file) error. -/
theorem read_check_string_trunc {file F k : List Nat} {m pos : Nat}
    (hf : file = F ++ (stringRecord k).take m) (hp : pos = F.length)
    (hk64 : k.length < 2 ^ 64) (hkne : k.length ≠ 2 ^ 63)
    (hm : m < 12 + k.length) :
    read_check_string file pos = .error .ioError := by
  have htne : u64Be k.length ≠ ENCODED_TOMBSTONE := u64Be_ne_tombstone hk64 hkne
  have hsrl : (stringRecord k).length = 8 + k.length + 4 := stringRecord_length k
  have hlen : file.length = pos + m := by
    subst hf hp
    rw [List.length_append, List.length_take, stringRecord_length]
    omega
  by_cases h8 : m < 8
  · exact read_check_string_oob (by omega)
  · -- at least the whole length field is present
    have hdec : (stringRecord k).take m =
        u64Be k.length ++ (k ++ u32Be (crc32 k)).take (m - 8) := by
      unfold stringRecord
      have hm8 : m = (u64Be k.length).length + (m - 8) := by
        simp [u64Be_length]; omega
      conv_lhs => rw [hm8]
      rw [take_append_add]
    by_cases hK : m - 8 < k.length
    · -- truncated inside the key bytes
      have hdec2 : (k ++ u32Be (crc32 k)).take (m - 8) = k.take (m - 8) :=
        take_append_le (by omega)
      refine read_check_string_short2 (A := F) (B := u64Be k.length)
        (C := k.take (m - 8)) ?_ hp (u64Be_length _) htne ?_
      · rw [hf, hdec, hdec2]
      · rw [beDecode_u64Be hk64]; omega
    · -- the key bytes are whole, the checksum is truncated
      have hdec2 : (k ++ u32Be (crc32 k)).take (m - 8) =
          k ++ (u32Be (crc32 k)).take (m - 8 - k.length) := by
        have hmk : m - 8 = k.length + (m - 8 - k.length) := by omega
        conv_lhs => rw [hmk]
        rw [take_append_add]
      refine read_check_string_short3 (A := F) (B := u64Be k.length) (D := k)
        (C := (u32Be (crc32 k)).take (m - 8 - k.length)) ?_ hp (u64Be_length _) htne
        (by rw [beDecode_u64Be hk64]) ?_
      · rw [hf, hdec, hdec2]
      · rw [beDecode_u64Be hk64]; omega

/-- Scanning a file that ends in a truncated entry fails with an IO
(end-of-file) read error. -/
theorem scan_trunc {file F : List Nat} {e : Entry} {m : Nat} {idx : Index}
    (hwf : EntryWF e) (hm0 : 0 < m) (hmlt : m < (encodeEntry e).length)
    (hf : file = F ++ (encodeEntry e).take m) :
    scanLoop file F.length idx = .error (.readError .ioError) := by
  cases e with
  | put k vb cb =>
    obtain ⟨hku, hk64, hkne, hvb, hcb⟩ := hwf
    have hel : (encodeEntry (.put k vb cb)).length =
        12 + k.length + 8 + vb.length + 4 := by
      rw [encodeEntry_put_length]; omega
    have hlen : file.length = F.length + m := by
      subst hf; rw [List.length_append, List.length_take]; omega
    have hpos : F.length ≠ file.length := by omega
    by_cases hkr : m < 12 + k.length
    · -- truncated inside the key record
      have hdec : (encodeEntry (.put k vb cb)).take m = (stringRecord k).take m := by
        rw [encodeEntry_put]
        exact take_append_le (by rw [stringRecord_length]; omega)
      rw [hdec] at hf
      exact scanLoop_eq_rcs_err hpos (read_check_string_trunc hf rfl hk64 hkne hkr)
    · -- the key record is whole; the value region is truncated
      have hdec : (encodeEntry (.put k vb cb)).take m =
          stringRecord k ++ (u64Be vb.length ++ (vb ++ cb)).take (m - (12 + k.length)) := by
        rw [encodeEntry_put]
        have hm2 : m = (stringRecord k).length + (m - (12 + k.length)) := by
          rw [stringRecord_length]; omega
        conv_lhs => rw [hm2]
        rw [take_append_add]
      set m2 := m - (12 + k.length) with hm2def
      have hm2lt : m2 < 8 + vb.length + 4 := by omega
      have h1 : read_check_string file F.length =
          .ok (some k, F.length + 8 + k.length + 4) :=
        read_check_string_record F ((u64Be vb.length ++ (vb ++ cb)).take m2) k
          (by rw [hf, hdec]) rfl hk64 hkne hku
      by_cases hv8 : m2 < 8
      · -- the value length prefix itself is truncated
        have h2 : readExact file (F.length + 8 + k.length + 4) 8 = .error .ioError :=
          readExact_oob (by omega)
        exact scanLoop_eq_vread_err hpos h1 h2
      · -- the length prefix is whole, the value bytes end early
        have hdec2 : (u64Be vb.length ++ (vb ++ cb)).take m2 =
            u64Be vb.length ++ (vb ++ cb).take (m2 - 8) := by
          have hmv : m2 = (u64Be vb.length).length + (m2 - 8) := by simp [u64Be_length]; omega
          conv_lhs => rw [hmv]
          rw [take_append_add]
        have h2 : readExact file (F.length + 8 + k.length + 4) 8 =
            .ok (u64Be vb.length, F.length + 8 + k.length + 4 + 8) :=
          readExact_spec (F ++ stringRecord k) (u64Be vb.length) ((vb ++ cb).take (m2 - 8))
            (by rw [hf, hdec, hdec2]; simp [List.append_assoc])
            (by simp [stringRecord_length]; omega) rfl
        have hv64 : vb.length < 2 ^ 64 := by unfold I64_MAX at hvb; omega
        rw [scanLoop_eq_put hpos h1 h2
          (u64Be_ne_tombstone hv64 (by unfold I64_MAX at hvb; omega))
          (by rw [beDecode_u64Be hv64, wrap_small hvb]; exact hvb)]
        rw [beDecode_u64Be hv64, wrap_small hvb]
        have hover : file.length <
            F.length + 8 + k.length + 4 + 8 + (vb.length + 4) := by omega
        have hpos2 : F.length + 8 + k.length + 4 + 8 + (vb.length + 4) ≠ file.length := by
          omega
        exact scanLoop_eq_rcs_err hpos2 (read_check_string_oob (by omega))
  | del k =>
    obtain ⟨hku, hk64, hkne⟩ := hwf
    have hel : (encodeEntry (.del k)).length = 12 + k.length + 8 := encodeEntry_del_length k
    have hlen : file.length = F.length + m := by
      subst hf; rw [List.length_append, List.length_take]; omega
    have hpos : F.length ≠ file.length := by omega
    by_cases hkr : m < 12 + k.length
    · have hdec : (encodeEntry (.del k)).take m = (stringRecord k).take m := by
        rw [encodeEntry_del]
        exact take_append_le (by rw [stringRecord_length]; omega)
      rw [hdec] at hf
      exact scanLoop_eq_rcs_err hpos (read_check_string_trunc hf rfl hk64 hkne hkr)
    · -- the key record is whole; the tombstone is truncated
      have hdec : (encodeEntry (.del k)).take m =
          stringRecord k ++ ENCODED_TOMBSTONE.take (m - (12 + k.length)) := by
        rw [encodeEntry_del]
        have hm2 : m = (stringRecord k).length + (m - (12 + k.length)) := by
          rw [stringRecord_length]; omega
        conv_lhs => rw [hm2]
        rw [take_append_add]
      have h1 : read_check_string file F.length =
          .ok (some k, F.length + 8 + k.length + 4) :=
        read_check_string_record F (ENCODED_TOMBSTONE.take (m - (12 + k.length))) k
          (by rw [hf, hdec]) rfl hk64 hkne hku
      have h2 : readExact file (F.length + 8 + k.length + 4) 8 = .error .ioError :=
        readExact_oob (by omega)
      exact scanLoop_eq_vread_err hpos h1 h2


theorem byteValid_slice {file : List Nat} (h : ByteValid file) (pos n : Nat) :
    ByteValid ((file.drop pos).take n) := fun x hx =>
  h x (List.drop_subset pos file (List.take_subset n (file.drop pos) hx))

theorem readExact_decomp {file : List Nat} {pos n : Nat} {bs : List Nat} {p2 : Nat}
    (h : readExact file pos n = .ok (bs, p2)) :
    file.drop pos = bs ++ file.drop p2 ∧ bs.length = n := by
  obtain ⟨hbs, hp2, hle⟩ := readExact_ok h
  subst hbs hp2
  constructor
  · conv_lhs => rw [← List.take_append_drop n (file.drop pos)]
    rw [List.drop_drop, Nat.add_comm]
  · rw [List.length_take, List.length_drop]
    omega

theorem scanLoop_ok_le {file : List Nat} {pos : Nat} {idx out : Index}
    (h : scanLoop file pos idx = .ok out) : pos ≤ file.length := by
  by_cases hpos : pos = file.length
  · omega
  · cases e1 : read_check_string file pos with
    | error e => rw [scanLoop_eq_rcs_err hpos e1] at h; cases h
    | ok r =>
      obtain ⟨v, p2⟩ := r
      obtain ⟨hb, -, -⟩ := read_check_string_pos e1
      omega

theorem read_check_string_ok_structure {file : List Nat} {pos : Nat} {k : List Nat} {p1 : Nat}
    (hbv : ByteValid file)
    (h : read_check_string file pos = .ok (some k, p1)) :
    file.drop pos = stringRecord k ++ file.drop p1 ∧
      p1 = pos + 8 + k.length + 4 ∧ p1 ≤ file.length ∧
      validUtf8 k = true ∧ k.length < 2 ^ 64 ∧ k.length ≠ 2 ^ 63 := by
  unfold read_check_string at h
  cases e1 : readExact file pos 8 with
  | error e => rw [e1] at h; cases h
  | ok r1 =>
    obtain ⟨encLen, pa⟩ := r1
    rw [e1] at h
    dsimp only at h
    obtain ⟨hd1, hl1⟩ := readExact_decomp e1
    obtain ⟨hbs1, hpa, hle1⟩ := readExact_ok e1
    by_cases ht : encLen = ENCODED_TOMBSTONE
    · rw [if_pos ht] at h
      injection h with h2
      injection h2 with h3 h4
      cases h3
    · rw [if_neg ht] at h
      cases e2 : readExact file pa (beDecode encLen) with
      | error e => rw [e2] at h; cases h
      | ok r2 =>
        obtain ⟨bytes, pb⟩ := r2
        rw [e2] at h
        dsimp only at h
        obtain ⟨hd2, hl2⟩ := readExact_decomp e2
        obtain ⟨hbs2, hpb, hle2⟩ := readExact_ok e2
        cases e3 : readExact file pb 4 with
        | error e => rw [e3] at h; cases h
        | ok r3 =>
          obtain ⟨crcB, pc⟩ := r3
          rw [e3] at h
          dsimp only at h
          obtain ⟨hd3, hl3⟩ := readExact_decomp e3
          obtain ⟨hbs3, hpc, hle3⟩ := readExact_ok e3
          split at h
          · cases h
          · rename_i hcrc
            rw [not_not] at hcrc
            split at h
            · rename_i hutf
              injection h with h2
              injection h2 with h3 h4
              injection h3 with h3
              subst h3
              subst h4
              have hbvEnc : ∀ x ∈ encLen, x < 256 := by
                rw [hbs1]; exact byteValid_slice hbv pos 8
              have hbvCrc : ∀ x ∈ crcB, x < 256 := by
                rw [hbs3]; exact byteValid_slice hbv pb 4
              have hklen : bytes.length = beDecode encLen := hl2
              have h64 : bytes.length < 2 ^ 64 := by
                rw [hklen]
                have hq := beDecode_lt hbvEnc
                rw [hl1] at hq
                calc beDecode encLen < 256 ^ 8 := hq
                  _ = 2 ^ 64 := by norm_num
              have hqenc : u64Be bytes.length = encLen := by
                rw [hklen]
                exact u64Be_beDecode hl1 hbvEnc
              have hkne : bytes.length ≠ 2 ^ 63 := by
                intro hq
                apply ht
                rw [← hqenc, hq]
                rfl
              have hqcrc : u32Be (crc32 bytes) = crcB := by
                rw [← hcrc]
                exact u32Be_beDecode hl3 hbvCrc
              refine ⟨?_, by omega, by omega, hutf, h64, hkne⟩
              rw [hd1, hd2, hd3]
              unfold stringRecord
              rw [hqenc, hqcrc, hpc]
              simp [List.append_assoc]
            · cases h


theorem scan_sound_aux : ∀ (n : Nat) (file : List Nat) (pos : Nat) (idx out : Index),
    ByteValid file → file.length - pos ≤ n →
    scanLoop file pos idx = .ok out →
    ∃ rs : List RawEntry, (∀ e ∈ rs, RawWF e) ∧ file.drop pos = encodeRaws rs ∧
      out = replayRaws rs pos idx := by
  intro n
  induction n with
  | zero =>
    intro file pos idx out hbv hle h
    by_cases hpos : pos = file.length
    · rw [scanLoop_eof hpos] at h
      injection h with h
      subst h hpos
      exact ⟨[], by simp, by simp [List.drop_length, encodeRaws], rfl⟩
    · exfalso
      rw [scanLoop_eq_rcs_err hpos (read_check_string_oob (by omega))] at h
      cases h
  | succ n ih =>
    intro file pos idx out hbv hle h
    by_cases hpos : pos = file.length
    · rw [scanLoop_eof hpos] at h
      injection h with h
      subst h hpos
      exact ⟨[], by simp, by simp [List.drop_length, encodeRaws], rfl⟩
    · cases e1 : read_check_string file pos with
      | error e =>
        rw [scanLoop_eq_rcs_err hpos e1] at h
        cases h
      | ok r1 =>
        obtain ⟨v1, p1⟩ := r1
        cases v1 with
        | none =>
          rw [scanLoop_eq_tomb_key hpos e1] at h
          cases h
        | some k =>
          obtain ⟨hd, hp1, hp1le, hutf, hk64, hkne⟩ :=
            read_check_string_ok_structure hbv e1
          cases e2 : readExact file p1 8 with
          | error e =>
            rw [scanLoop_eq_vread_err hpos e1 e2] at h
            cases h
          | ok r2 =>
            obtain ⟨encV, p2⟩ := r2
            obtain ⟨hd2, hl2⟩ := readExact_decomp e2
            obtain ⟨hbs2, hp2, hle2⟩ := readExact_ok e2
            have hbvV : ∀ x ∈ encV, x < 256 := by
              rw [hbs2]; exact byteValid_slice hbv p1 8
            by_cases ht : encV = ENCODED_TOMBSTONE
            · subst ht
              rw [scanLoop_eq_del hpos e1 e2] at h
              obtain ⟨rs2, hwf2, hdec2, hout2⟩ :=
                ih file p2 (idxRemove idx k) out hbv (by omega) h
              refine ⟨.rdel k :: rs2, ?_, ?_, ?_⟩
              · intro e he
                rw [List.mem_cons] at he
                cases he with
                | inl h5 => subst h5; exact ⟨hutf, hk64, hkne⟩
                | inr h5 => exact hwf2 e h5
              · rw [hd, hd2, hdec2]
                simp only [encodeRaws, encodeRaw, List.append_assoc]
              · rw [hout2]
                simp only [replayRaws, applyRaw]
                have hq : pos + (encodeRaw (.rdel k)).length = p2 := by
                  rw [encodeRaw_rdel_length]; omega
                rw [hq]
            · by_cases hs : (beDecode encV + 4) % 2 ^ 64 ≤ I64_MAX
              · rw [scanLoop_eq_put hpos e1 e2 ht hs] at h
                have hnle : p2 + (beDecode encV + 4) % 2 ^ 64 ≤ file.length :=
                  scanLoop_ok_le h
                obtain ⟨rs2, hwf2, hdec2, hout2⟩ :=
                  ih file (p2 + (beDecode encV + 4) % 2 ^ 64) (idxInsert idx k pos) out hbv
                    (by omega) h
                have hn64 : beDecode encV < 2 ^ 64 := by
                  have hq := beDecode_lt hbvV
                  rw [hl2] at hq
                  calc beDecode encV < 256 ^ 8 := hq
                    _ = 2 ^ 64 := by norm_num
                have hencV : u64Be (beDecode encV) = encV := u64Be_beDecode hl2 hbvV
                have hnne : beDecode encV ≠ 2 ^ 63 := by
                  intro hq
                  apply ht
                  rw [← hencV, hq]
                  rfl
                have hwl : ((file.drop p2).take ((beDecode encV + 4) % 2 ^ 64)).length =
                    (beDecode encV + 4) % 2 ^ 64 := by
                  rw [List.length_take, List.length_drop]; omega
                have hdv : file.drop p2 = (file.drop p2).take ((beDecode encV + 4) % 2 ^ 64) ++
                    file.drop (p2 + (beDecode encV + 4) % 2 ^ 64) := by
                  conv_lhs =>
                    rw [← List.take_append_drop ((beDecode encV + 4) % 2 ^ 64) (file.drop p2)]
                  rw [List.drop_drop]
                refine ⟨.rput k (beDecode encV)
                    ((file.drop p2).take ((beDecode encV + 4) % 2 ^ 64)) :: rs2, ?_, ?_, ?_⟩
                · intro e he
                  rw [List.mem_cons] at he
                  cases he with
                  | inl h5 =>
                    subst h5
                    exact ⟨hutf, hk64, hkne, hn64, hnne, hs, hwl⟩
                  | inr h5 => exact hwf2 e h5
                · conv_lhs => rw [hd, hd2, hdv, hdec2]
                  simp only [encodeRaws, encodeRaw]
                  rw [hencV]
                  simp only [List.append_assoc]
                · rw [hout2]
                  simp only [replayRaws, applyRaw]
                  have hq : pos + (encodeRaw (.rput k (beDecode encV)
                      ((file.drop p2).take ((beDecode encV + 4) % 2 ^ 64)))).length =
                      p2 + (beDecode encV + 4) % 2 ^ 64 := by
                    rw [encodeRaw_rput_length, hwl]; omega
                  rw [hq]
              · rw [scanLoop_eq_seek_err hpos e1 e2 ht hs] at h
                cases h


instance instDecEntryWF (e : Entry) : Decidable (EntryWF e) :=
  match e with
  | .put k vb cb => inferInstanceAs (Decidable (validUtf8 k = true ∧ k.length < 2 ^ 64 ∧
      k.length ≠ 2 ^ 63 ∧ vb.length + 4 ≤ I64_MAX ∧ cb.length = 4))
  | .del k => inferInstanceAs
      (Decidable (validUtf8 k = true ∧ k.length < 2 ^ 64 ∧ k.length ≠ 2 ^ 63))

instance instDecRawWF (e : RawEntry) : Decidable (RawWF e) :=
  match e with
  | .rput k n w => inferInstanceAs (Decidable (validUtf8 k = true ∧ k.length < 2 ^ 64 ∧
      k.length ≠ 2 ^ 63 ∧ n < 2 ^ 64 ∧ n ≠ 2 ^ 63 ∧ (n + 4) % 2 ^ 64 ≤ I64_MAX ∧
      w.length = (n + 4) % 2 ^ 64))
  | .rdel k => inferInstanceAs
      (Decidable (validUtf8 k = true ∧ k.length < 2 ^ 64 ∧ k.length ≠ 2 ^ 63))

theorem encodeEntry_length_ge (e : Entry) : 20 ≤ (encodeEntry e).length := by
  cases e with
  | put k vb cb => rw [encodeEntry_put_length]; omega
  | del k => rw [encodeEntry_del_length]; omega

/-- C9: the reconstruction scan terminates, and success is characterised
by the raw record structure the scan actually checks.  (1) On a file that
is a whole sequence of wellformed raw entries — each a key record
followed by the tombstone, or by a 64-bit length field `n` and a region
of `(n + 4) % 2^64` bytes, the wrapped `u64` skip delta of the source
(equal to the unwrapped `n + 4`, value bytes plus checksum, whenever
`n < 2^64 - 4`) — the scan ends successfully with the index obtained by
replaying the entries in log order.  (2) Conversely, whenever the scan of
a byte file succeeds, the file decomposes exactly into such raw entries
whose replay is the returned index: success happens only when the
wrapped skip deltas land exactly on end-of-file.  (3) A file whose
trailing wellformed entry is truncated (cut anywhere strictly inside the
last entry) makes the scan terminate with a read (unexpected
end-of-file) error instead of silently accepting the prefix.  Because
the skip delta wraps, a malformed trailing record with a length field at
least `2^64 - 4` is not always rejected: see the counterexample.
Termination itself is structural: `scanLoop` is a total function,
mirroring the loop's strictly advancing position. -/
theorem c9_scan_exact :
    (∀ rs : List RawEntry, (∀ e ∈ rs, RawWF e) →
        index_from_disk (encodeRaws rs) = .ok (replayRaws rs 0 [])) ∧
    (∀ (f : List Nat) (idx : Index), ByteValid f → index_from_disk f = .ok idx →
        ∃ rs : List RawEntry, (∀ e ∈ rs, RawWF e) ∧ f = encodeRaws rs ∧
          idx = replayRaws rs 0 []) ∧
    (∀ (es : List Entry) (e : Entry) (m : Nat), (∀ x ∈ es, EntryWF x) → EntryWF e →
        0 < m → m < (encodeEntry e).length →
        index_from_disk (encodeEntries es ++ (encodeEntry e).take m) =
          .error (.readError .ioError)) := by
  refine ⟨scan_raws, ?_, ?_⟩
  · intro f idx hbv h
    unfold index_from_disk at h
    obtain ⟨rs, hwf, hdec, hout⟩ := scan_sound_aux f.length f 0 [] idx hbv (by omega) h
    rw [List.drop_zero] at hdec
    exact ⟨rs, hwf, hdec, hout⟩
  · intro es e m hes he hm0 hmlt
    have h1 : scanLoop (encodeEntries es) 0 [] = .ok (replayEntries es 0 []) := by
      have h0 := scan_entries_aux es [] [] hes
      simpa using h0
    have h2 := scan_append ((encodeEntry e).take m) h1
    unfold index_from_disk
    rw [h2]
    exact scan_trunc he hm0 hmlt rfl

/-- Counterexample to the unqualified reading of C9: `wrapFile` is a
24-byte file whose single record declares a value length of `2^64 - 1`
and holds only 3 bytes after the length field.  The scan accepts it —
the source's `u64` addition `value_len + CRC32_SIZE` wraps to 3 in a
release build (a debug build would panic on the overflow), the seek
lands exactly on end-of-file, and the key is indexed — although the
declared record extends far past end-of-file and the file is not a
sequence of whole wellformed entries in the codec's sense. -/
theorem c9_counterexample :
    index_from_disk wrapFile = .ok [([97], 0)] ∧
      13 + 8 + (beDecode (u64Be (2 ^ 64 - 1)) + 4) ≠ wrapFile.length ∧
      ¬∃ es : List Entry, (∀ e ∈ es, EntryWF e) ∧ wrapFile = encodeEntries es := by
  refine ⟨?_, by decide, ?_⟩
  · have hpos0 : (0 : Nat) ≠ wrapFile.length := by decide
    have h1 : read_check_string wrapFile 0 = .ok (some [97], 0 + 8 + [97].length + 4) :=
      read_check_string_record [] (u64Be (2 ^ 64 - 1) ++ [0, 0, 0]) [97]
        (by simp [wrapFile]) rfl (by decide) (by decide) (by decide)
    have h2 : readExact wrapFile (0 + 8 + [97].length + 4) 8 =
        .ok (u64Be (2 ^ 64 - 1), 0 + 8 + [97].length + 4 + 8) :=
      readExact_spec (stringRecord [97]) (u64Be (2 ^ 64 - 1)) [0, 0, 0]
        (by simp [wrapFile]) (by simp [stringRecord_length]) rfl
    have hne : u64Be (2 ^ 64 - 1) ≠ ENCODED_TOMBSTONE := by decide
    have hdec64 : beDecode (u64Be (2 ^ 64 - 1)) = 2 ^ 64 - 1 :=
      beDecode_u64Be (by omega)
    have hguard : (beDecode (u64Be (2 ^ 64 - 1)) + 4) % 2 ^ 64 ≤ I64_MAX := by
      rw [hdec64]
      unfold I64_MAX
      omega
    unfold index_from_disk
    rw [scanLoop_eq_put hpos0 h1 h2 hne hguard]
    have hq : 0 + 8 + ([97] : List Nat).length + 4 + 8 +
        (beDecode (u64Be (2 ^ 64 - 1)) + 4) % 2 ^ 64 = wrapFile.length := by
      rw [hdec64]
      have h24 : wrapFile.length = 24 := by decide
      rw [h24]
      simp only [List.length_cons, List.length_nil]
      omega
    rw [scanLoop_eof hq]
    rfl
  · rintro ⟨es, hwf, heq⟩
    have h24 : wrapFile.length = 24 := by decide
    cases es with
    | nil =>
      have hl := congrArg List.length heq
      simp only [encodeEntries, List.length_nil] at hl
      omega
    | cons e es2 =>
      have h8 : wrapFile.take 8 = u64Be 1 := by decide
      cases e with
      | put k vb cb =>
        obtain ⟨hku, hk64, hkne, hvb, hcb⟩ := hwf (Entry.put k vb cb) (by simp)
        have heqq : wrapFile = encodeEntry (Entry.put k vb cb) ++ encodeEntries es2 := by
          rw [heq]; simp only [encodeEntries]
        have htake : (encodeEntry (Entry.put k vb cb) ++ encodeEntries es2).take 8 =
            u64Be k.length := by
          simp only [encodeEntry, stringRecord, List.append_assoc]
          exact List.take_left' (u64Be_length _)
        have he8 : u64Be k.length = u64Be 1 := by
          rw [← htake, ← heqq, h8]
        have hk1 : k.length = 1 := by
          have hq := congrArg beDecode he8
          rwa [beDecode_u64Be hk64, beDecode_u64Be (by omega)] at hq
        have hlen := congrArg List.length heqq
        rw [List.length_append, encodeEntry_put_length] at hlen
        omega
      | del k =>
        obtain ⟨hku, hk64, hkne⟩ := hwf (Entry.del k) (by simp)
        have heqq : wrapFile = encodeEntry (Entry.del k) ++ encodeEntries es2 := by
          rw [heq]; simp only [encodeEntries]
        have htake : (encodeEntry (Entry.del k) ++ encodeEntries es2).take 8 =
            u64Be k.length := by
          simp only [encodeEntry, stringRecord, List.append_assoc]
          exact List.take_left' (u64Be_length _)
        have he8 : u64Be k.length = u64Be 1 := by
          rw [← htake, ← heqq, h8]
        have hk1 : k.length = 1 := by
          have hq := congrArg beDecode he8
          rwa [beDecode_u64Be hk64, beDecode_u64Be (by omega)] at hq
        have hlen := congrArg List.length heqq
        rw [List.length_append, encodeEntry_del_length] at hlen
        cases es2 with
        | nil =>
          simp only [encodeEntries, List.length_nil] at hlen
          omega
        | cons e2 es3 =>
          have hge : 20 ≤ (encodeEntry e2).length := encodeEntry_length_ge e2
          have hlen2 : (encodeEntries (e2 :: es3)).length =
              (encodeEntry e2).length + (encodeEntries es3).length := by
            simp [encodeEntries]
          omega

/-- Witness for C9, instantiating the whole-file success half both on a
raw entry whose skip delta wraps (the counterexample file) and, via the
truncation half, on an ordinary wellformed entry cut after five bytes. -/
theorem c9_witness :
    index_from_disk (encodeRaws [.rput [97] (2 ^ 64 - 1) [0, 0, 0]]) =
      .ok (replayRaws [.rput [97] (2 ^ 64 - 1) [0, 0, 0]] 0 []) ∧
      index_from_disk (encodeEntries [] ++
        (encodeEntry (.put [97] [120] (u32Be (crc32 [120])))).take 5) =
        .error (.readError .ioError) :=
  ⟨c9_scan_exact.1 [.rput [97] (2 ^ 64 - 1) [0, 0, 0]] (by decide),
    c9_scan_exact.2.2 [] (.put [97] [120] (u32Be (crc32 [120]))) 5 (by simp)
      (by decide) (by decide) (by decide)⟩


end SunsetModel
